import Mathlib

/-!
Shallow embedding of the decoding engine in `src/protocol/decode.go`
(package `protocol` of the kafka-go repository).

Modelling conventions:
* Bytes are `Nat` (hypotheses add `< 256` where sign/bit interpretation matters).
* The underlying `io.Reader` is modelled with the semantics of `bytes.Reader`
  over the list of not-yet-consumed bytes (`source`), which is exactly how the
  `Unmarshal` entry point binds the decoder (`bytes.NewReader(data)`).  A flag
  `hasDiscard` records whether the reader additionally implements the
  `discarder` interface (`bytes.Reader` does not; `bufio.Reader` does), which
  selects the branch taken inside `decoder.discard`.
* `remain` is `Int`, as in Go (`remain int`), so that the "budget never
  negative" property is a theorem and not a typing artifact.
* The 8-byte scratch buffer `buffer [8]byte` is pure transport between
  `readFull` and the fixed-width parsers; we return the read bytes directly.
  The CRC fields `table`/`crc32` only feed a running checksum and never affect
  control flow, consumption, results or errors of any modelled operation
  (`Unmarshal` never calls `setCRC`), so they are omitted from the state.
* Go loops (`io.ReadFull`, `io.Copy`) are written with an explicit fuel
  argument so that every definition is structurally recursive and hence
  kernel-computable; the fuel is always sufficient because each loop iteration
  consumes at least one byte (the fuel-exhausted branches are unreachable and
  are noted where they occur).
-/

namespace KafkaGo

/-- Error values that can reach the decoder's sticky error slot in the
modelled fragment: `io.EOF`, `io.ErrUnexpectedEOF`, and the two varint decode
errors created with `fmt.Errorf` in `readVarInt` / `readUnsignedVarInt`. -/
inductive DErr where
  | eof
  | unexpectedEOF
  | cannotDecodeVarint
  | cannotDecodeUVarint
deriving DecidableEq, Repr

/-- The `decoder` struct of decode.go: underlying byte source (remaining bytes
of the `bytes.Reader` / `bufio.Reader`), whether the source implements the
`discarder` interface, the remaining frame budget `remain`, and the sticky
error slot `err`. -/
structure Decoder where
  source : List Nat
  hasDiscard : Bool
  remain : Int
  err : Option DErr
deriving DecidableEq, Repr

/-- Go conversion `int64(u)` of a `uint64` value `u < 2^64`. -/
def toInt64 (u : Nat) : Int :=
  if u < 2 ^ 63 then (u : Int) else (u : Int) - 2 ^ 64

/-- Big-endian composition of a byte list, as `binary.BigEndian.UintNN`. -/
def beNat (bs : List Nat) : Nat :=
  bs.foldl (fun a b => a * 256 + b) 0

/-- Two's-complement reinterpretation of a `w`-bit unsigned value, as in the
Go conversions `int8(b[0])`, `int16(binary.BigEndian.Uint16(b))`, etc. -/
def toSigned (w : Nat) (u : Nat) : Int :=
  if u < 2 ^ (w - 1) then (u : Int) else (u : Int) - 2 ^ w

/-- Go `decoder.Read`.  Mirrors decode.go lines 39-55: sticky error short-circuit,
`remain == 0` reports `io.EOF`, the request is truncated to `remain`, then the
`bytes.Reader` serves `min` of the request and what it still holds (returning
`io.EOF` only when it is already exhausted), and `remain` is decremented by
the bytes actually read.  Returns (bytes read, error forwarded). -/
def dRead (d : Decoder) (k : Nat) : (List Nat × Option DErr) × Decoder :=
  match d.err with
  | some e => (([], some e), d)
  | none =>
    if d.remain = 0 then (([], some .eof), d)
    else
      let k' : Nat := if (k : Int) > d.remain then d.remain.toNat else k
      if d.source.isEmpty then (([], some .eof), d)
      else
        let n := min k' d.source.length
        ((d.source.take n, none),
         { d with source := d.source.drop n, remain := d.remain - n })

/-- The read loop of `io.ReadAtLeast(d, b, len(b))`: keep calling `d.Read`
until the buffer is full or a read returns an error.  `fuel` bounds the number
of iterations; called with `fuel = need` it never runs out because every
iteration that recurses has read at least one byte. -/
def readLoopF : Nat → Decoder → Nat → (List Nat × Option DErr) × Decoder
  | _, d, 0 => (([], none), d)
  | 0, d, _ + 1 => (([], none), d)
  | fuel + 1, d, need + 1 =>
      let r := dRead d (need + 1)
      match r with
      | ((bs, some e), d1) => ((bs, some e), d1)
      | ((bs, none), d1) =>
        if bs.length = 0 then ((bs, none), d1)
        else
          let r2 := readLoopF fuel d1 (need + 1 - bs.length)
          ((bs ++ r2.1.1, r2.1.2), r2.2)

/-- Go `io.ReadFull(d, b)` with `len b = k`: the loop above plus the
`ReadAtLeast` error fixups (`n >= min` clears the error; a partial read ended
by `io.EOF` becomes `io.ErrUnexpectedEOF`). -/
def ioReadFull (d : Decoder) (k : Nat) : (List Nat × Option DErr) × Decoder :=
  let r := readLoopF k d k
  let bs := r.1.1
  if bs.length ≥ k then ((bs, none), r.2)
  else if bs.length > 0 ∧ r.1.2 = some .eof then ((bs, some .unexpectedEOF), r.2)
  else r

/-- One pass of `io.Copy(ioutil.Discard, d)` (also used by `writeTo`): read
32KiB chunks from the cursor until a read returns an error; `io.EOF` counts as
a clean end of stream.  Returns (bytes copied, error).  `fuel` bounds the
iterations; `d.source.length + 1` always suffices since every iteration that
recurses consumed at least one source byte. -/
def ioCopyF : Nat → Decoder → (Nat × Option DErr) × Decoder
  | 0, d => ((0, none), d)
  | fuel + 1, d =>
      let r := dRead d 32768
      match r with
      | ((_, some e), d1) => ((0, if e = .eof then none else some e), d1)
      | ((bs, none), d1) =>
        if bs.length = 0 then ((0, none), d1)
        else
          let r2 := ioCopyF fuel d1
          ((bs.length + r2.1.1, r2.1.2), r2.2)

/-- The body of `decoder.discard` (decode.go lines 134-146) without its final
`d.setError(err)` call: cap `n` at `remain`; if the reader implements
`discarder`, call `reader.Discard(n)` directly (it skips up to `n` bytes of
the underlying source, reporting `io.EOF` when fewer were available) and
subtract what was discarded from `remain`; otherwise drain through
`io.Copy(ioutil.Discard, d)`, which goes through the cursor's own `Read`.
Returns the error that `discard` passes to `setError`. -/
def discardRaw (d : Decoder) (n : Int) : Decoder × Option DErr :=
  let n := if n > d.remain then d.remain else n
  if d.hasDiscard then
    let k := n.toNat
    let disc := min k d.source.length
    ({ d with source := d.source.drop disc, remain := d.remain - disc },
     if disc < k then some .eof else none)
  else
    let r := ioCopyF (d.source.length + 1) d
    (r.2, r.1.2)

/-- Go `decoder.setError` (decode.go lines 169-174): if the sticky slot is empty
and `err` is non-nil, latch it and call `discardAll`.  The `discard` executed
by that `discardAll` ends in `d.setError(err2)`, which at that point is a
no-op because the sticky slot was just filled; that trailing no-op call is
therefore inlined away here (it would otherwise make the two functions
mutually recursive). -/
def setError (d : Decoder) (e : Option DErr) : Decoder :=
  match d.err, e with
  | none, some er =>
      let d1 : Decoder := { d with err := some er }
      (discardRaw d1 d1.remain).1
  | _, _ => d

/-- Go `decoder.discard`: the mechanics above followed by `setError` on the
reported error. -/
def discard (d : Decoder) (n : Int) : Decoder :=
  let r := discardRaw d n
  setError r.1 r.2

/-- Go `decoder.discardAll`: `discard(remain)`. -/
def discardAll (d : Decoder) : Decoder :=
  discard d d.remain

/-- Go `decoder.readFull(b)` with `len b = k`: `io.ReadFull` into the buffer,
latch any error, report whether the buffer was filled (and the bytes). -/
def readFull (d : Decoder) (k : Nat) : (List Nat × Bool) × Decoder :=
  let r := ioReadFull d k
  ((r.1.1, r.1.1.length = k), setError r.2 r.1.2)

/-- Go `decoder.read(n)`: allocate an `n`-byte buffer, `io.ReadFull`, truncate to
the bytes actually read, latch any error. -/
def dread (d : Decoder) (n : Nat) : List Nat × Decoder :=
  let r := ioReadFull d n
  (r.1.1, setError r.2 r.1.2)

/-- Go `decoder.writeTo(w, n)` (decode.go lines 156-167): temporarily lower
`remain` to `n`, `io.Copy` the cursor into the sink, turn a short copy with a
nil error into `io.ErrUnexpectedEOF`, restore `remain = limit - copied`, latch
the error.  The sink's contents are not modelled (no claim inspects them);
`n` is a byte count produced by a non-negative length prefix at every call
site. -/
def writeTo (d : Decoder) (n : Nat) : Decoder :=
  let limit := d.remain
  let d1 := if (n : Int) < limit then { d with remain := (n : Int) } else d
  let r := ioCopyF (d1.source.length + 1) d1
  let c := r.1.1
  let e := if (c : Int) < (n : Int) ∧ r.1.2 = none then some DErr.unexpectedEOF else r.1.2
  setError { r.2 with remain := limit - c } e

/-- Go `decoder.readByte`: `readFull` of one byte into the scratch buffer,
returning 0 when the read failed. -/
def readByte (d : Decoder) : Nat × Decoder :=
  let r := readFull d 1
  (if r.1.2 then r.1.1.getD 0 0 else 0, r.2)

/-- Go `decoder.readBool`: one byte, zero is `false`. -/
def readBool (d : Decoder) : Bool × Decoder :=
  let r := readByte d
  (r.1 ≠ 0, r.2)

/-- Go `decoder.readInt8`. -/
def readInt8 (d : Decoder) : Int × Decoder :=
  let r := readFull d 1
  (if r.1.2 then toSigned 8 (beNat r.1.1) else 0, r.2)

/-- Go `decoder.readInt16`: two big-endian bytes, two's complement. -/
def readInt16 (d : Decoder) : Int × Decoder :=
  let r := readFull d 2
  (if r.1.2 then toSigned 16 (beNat r.1.1) else 0, r.2)

/-- Go `decoder.readInt32`. -/
def readInt32 (d : Decoder) : Int × Decoder :=
  let r := readFull d 4
  (if r.1.2 then toSigned 32 (beNat r.1.1) else 0, r.2)

/-- Go `decoder.readInt64`. -/
def readInt64 (d : Decoder) : Int × Decoder :=
  let r := readFull d 8
  (if r.1.2 then toSigned 64 (beNat r.1.1) else 0, r.2)

/-- The shared loop body of `readVarInt`/`readUnsignedVarInt`: up to `fuel`
byte groups; a byte without the continuation bit terminates with the
accumulated value (`x |= uint64(b) << s`, a `uint64` computation, hence the
`% 2^64`); otherwise accumulate the low 7 bits and continue.  Returns `none`
when all `fuel` groups had the continuation bit set. -/
def uvarLoop : Decoder → Nat → Nat → Nat → Option Nat × Decoder
  | d, 0, _, _ => (none, d)
  | d, fuel + 1, x, s =>
      let r := readByte d
      let b := r.1
      if b &&& 0x80 = 0 then (some (x ||| (b <<< s) % 2 ^ 64), r.2)
      else uvarLoop r.2 fuel (x ||| ((b &&& 0x7f) <<< s) % 2 ^ 64) (s + 7)

/-- Go `decoder.readUnsignedVarInt` (decode.go lines 323-348): at most
`min 11 remain` groups; falling out of the loop latches the
"cannot decode unsigned varint" error and returns 0. -/
def readUnsignedVarInt (d : Decoder) : Nat × Decoder :=
  let n : Int := if 11 > d.remain then d.remain else 11
  match uvarLoop d n.toNat 0 0 with
  | (some x, d1) => (x, d1)
  | (none, d1) => (0, setError d1 (some .cannotDecodeUVarint))

/-- Zigzag step of `readVarInt`: `int64(x>>1) ^ -(int64(x)&1)`.  For
`x < 2^64` this equals `x/2` when `x` is even and `-(x/2) - 1` when odd. -/
def zigzag (x : Nat) : Int :=
  if x % 2 = 0 then ((x >>> 1 : Nat) : Int) else -((x >>> 1 : Nat) : Int) - 1

/-- Go `decoder.readVarInt` (decode.go lines 296-321): same loop, zigzag-decoded
result, "cannot decode varint" error on fall-through. -/
def readVarInt (d : Decoder) : Int × Decoder :=
  let n : Int := if 11 > d.remain then d.remain else 11
  match uvarLoop d n.toNat 0 0 with
  | (some x, d1) => (zigzag x, d1)
  | (none, d1) => (0, setError d1 (some .cannotDecodeVarint))

/-- Go `decoder.readString`: 2-byte signed length, negative means empty string
with no payload read, otherwise `read(n)` (possibly short, with the sticky
error latched).  Strings are byte lists (`bytesToString` is the identity on
the byte contents). -/
def readString (d : Decoder) : List Nat × Decoder :=
  let r := readInt16 d
  if r.1 < 0 then ([], r.2) else dread r.2 r.1.toNat

/-- Go `decoder.readCompactString`: unsigned varint holding length+1; a value
below 1 is the null/empty sentinel, else read `n-1` bytes (`int(n - 1)` is
the Go `uint64` to `int` conversion). -/
def readCompactString (d : Decoder) : List Nat × Decoder :=
  let r := readUnsignedVarInt d
  if r.1 < 1 then ([], r.2) else dread r.2 (toInt64 (r.1 - 1)).toNat

/-- Go `decoder.readBytes`: 4-byte signed length, negative means nil. -/
def readBytes (d : Decoder) : Option (List Nat) × Decoder :=
  let r := readInt32 d
  if r.1 < 0 then (none, r.2)
  else
    let r2 := dread r.2 r.1.toNat
    (some r2.1, r2.2)

/-- Go `decoder.readCompactBytes`: unsigned varint length+1, below 1 is nil. -/
def readCompactBytes (d : Decoder) : Option (List Nat) × Decoder :=
  let r := readUnsignedVarInt d
  if r.1 < 1 then (none, r.2)
  else
    let r2 := dread r.2 (toInt64 (r.1 - 1)).toNat
    (some r2.1, r2.2)

/-- The parsed per-field metadata `structTag` (version range, extension tag
id, compactness, nullability).  The parsing of the tag strings lives outside
src/; claims quantify over the parsed values directly.  Versions are `Int`
(Go `int16`). -/
structure StructTag where
  minVersion : Int
  maxVersion : Int
  tagID : Int
  compact : Bool
  nullable : Bool
deriving DecidableEq, Repr

/- The closed universe of destination shapes handled by `decodeFuncOf`:
primitives, strings, byte slices, structs (a list of fields, each carrying
its `structTag` list and a shape) and arrays (slices of non-byte element
shapes).  `SFields` is the field list, kept as part of the mutual inductive
so that all recursion over shapes is structural.  Types implementing
`io.ReaderFrom` (the custom-codec escape hatch) are outside this universe;
the claims are about the generic engine. -/
mutual
inductive Shape where
  | sbool
  | sint8
  | sint16
  | sint32
  | sint64
  | sstring
  | sbytes
  | sstruct (fields : SFields)
  | sarray (elem : Shape)
deriving DecidableEq, Repr

inductive SFields where
  | nil
  | cons (tags : List StructTag) (shape : Shape) (rest : SFields)
deriving DecidableEq, Repr
end

/- Destination values (the caller-owned structured value written through the
reflection `value` handles).  Byte slices are `Option` to keep Go's nil/empty
distinction.  Strings are byte lists.  `Vals` is the field/element list of
the mutual family. -/
mutual
inductive Val where
  | vbool (b : Bool)
  | vint8 (i : Int)
  | vint16 (i : Int)
  | vint32 (i : Int)
  | vint64 (i : Int)
  | vstring (s : List Nat)
  | vbytes (b : Option (List Nat))
  | vstruct (fields : Vals)
  | varray (elems : Vals)
deriving DecidableEq, Repr

inductive Vals where
  | nil
  | cons (v : Val) (rest : Vals)
deriving DecidableEq, Repr
end

/-- Length of a value list. -/
def Vals.length : Vals → Nat
  | .nil => 0
  | .cons _ rest => rest.length + 1

/-- Indexing with a default (Go reflection would panic out of range; the
compiled plans only ever use in-range indices). -/
def Vals.getD : Vals → Nat → Val → Val
  | .nil, _, dv => dv
  | .cons v _, 0, _ => v
  | .cons _ rest, n + 1, dv => rest.getD n dv

/-- Functional update of position `i` (no-op out of range, like `List.set`). -/
def Vals.set : Vals → Nat → Val → Vals
  | .nil, _, _ => .nil
  | .cons _ rest, 0, nv => .cons nv rest
  | .cons v rest, n + 1, nv => .cons v (rest.set n nv)

/-- Go `n` copies of a value, as `reflect.MakeSlice` zero-fills a slice. -/
def Vals.replicate : Nat → Val → Vals
  | 0, _ => .nil
  | n + 1, v => .cons v (Vals.replicate n v)

/- The zero `Val` of a shape (Go zero values: false, 0, "", nil slice,
zero-valued struct fields, nil slice for arrays).
`defaultVals` handles the field list. -/
mutual
def Shape.defaultVal : Shape → Val
  | .sbool => .vbool false
  | .sint8 => .vint8 0
  | .sint16 => .vint16 0
  | .sint32 => .vint32 0
  | .sint64 => .vint64 0
  | .sstring => .vstring []
  | .sbytes => .vbytes none
  | .sstruct fields => .vstruct (defaultVals fields)
  | .sarray _ => .varray .nil

def defaultVals : SFields → Vals
  | .nil => .nil
  | .cons _ sh rest => .cons sh.defaultVal (defaultVals rest)
end

/-- Go `v.fieldByIndex` on a struct destination. -/
def getField (v : Val) (i : Nat) : Val :=
  match v with
  | .vstruct fs => fs.getD i (.vstruct .nil)
  | _ => v

/-- Writing back a struct field. -/
def setField (v : Val) (i : Nat) (fv : Val) : Val :=
  match v with
  | .vstruct fs => .vstruct (fs.set i fv)
  | _ => v

/- Compiled decode plans, the result of `decodeFuncOf`.  A struct plan holds
the applicable ordinary fields in declaration order (`FieldsPlan`, the
`fields` slice of `structDecodeFuncOf`), the flexible flag captured by the
returned closure, and the registered extension fields (`TaggedPlan`, the
`taggedFields` map, represented as an association list keyed by tag id).
Array plans carry the element zero value (`makeArray` zero-fills). -/
mutual
inductive Plan where
  | pbool
  | pint8
  | pint16
  | pint32
  | pint64
  | pstring
  | pcompactString
  | pbytes
  | pcompactBytes
  | pstruct (ord : FieldsPlan) (flexible : Bool) (tagged : TaggedPlan)
  | parray (elemDefault : Val) (elem : Plan)
  | pcompactArray (elemDefault : Val) (elem : Plan)
deriving DecidableEq, Repr

inductive FieldsPlan where
  | nil
  | cons (index : Nat) (p : Plan) (rest : FieldsPlan)
deriving DecidableEq, Repr

inductive TaggedPlan where
  | nil
  | cons (tagID : Int) (index : Nat) (p : Plan) (rest : TaggedPlan)
deriving DecidableEq, Repr
end

/- `decodeFuncOf` / `structDecodeFuncOf` / `arrayDecodeFuncOf`
(decode.go lines 359-471): dispatch on the shape; strings/bytes/arrays pick
the compact codec exactly when the flexible flag is set; structs iterate the
declared fields, keep for each field the first tag whose
`MinVersion <= version <= MaxVersion` (the `forEachStructTag` callback stops
at the first applicable tag), put `TagID < -1` fields in the positional list
in declaration order and the others into the tagged lookup.  A field with no
applicable tag is omitted entirely.  `compileFields` carries the running
field index.  (Go keys `taggedFields` with a map, so with duplicate tag ids
in one struct the last registration would win where this association list
yields the first; no claim involves duplicate ids.) -/
mutual
def compile : Shape → Int → Bool → Plan
  | .sbool, _, _ => .pbool
  | .sint8, _, _ => .pint8
  | .sint16, _, _ => .pint16
  | .sint32, _, _ => .pint32
  | .sint64, _, _ => .pint64
  | .sstring, _, flex => if flex then .pcompactString else .pstring
  | .sbytes, _, flex => if flex then .pcompactBytes else .pbytes
  | .sstruct fields, v, flex =>
      let fp := compileFields fields v flex 0
      .pstruct fp.1 flex fp.2
  | .sarray e, v, flex =>
      if flex then .pcompactArray e.defaultVal (compile e v flex)
      else .parray e.defaultVal (compile e v flex)

def compileFields : SFields → Int → Bool → Nat → FieldsPlan × TaggedPlan
  | .nil, _, _, _ => (.nil, .nil)
  | .cons tags sh rest, v, flex, i =>
      let r := compileFields rest v flex (i + 1)
      match tags.find? (fun t => decide (t.minVersion ≤ v) && decide (v ≤ t.maxVersion)) with
      | some t =>
          if t.tagID < -1 then (.cons i (compile sh v flex) r.1, r.2)
          else (r.1, .cons t.tagID i (compile sh v flex) r.2)
      | none => r
end

/-- The element loop of `decodeArray`/`decodeCompactArray`:
`for i := 0; i < n && d.remain > 0; i++ { decodeElem(d, a.index(i)) }`.
The element decoder is passed as a function, exactly as Go passes the
compiled `decodeFunc` closure. -/
def runElemsFn (f : Decoder → Val → Val × Decoder) :
    Nat → Nat → Vals → Decoder → Vals × Decoder
  | 0, _, a, d => (a, d)
  | cnt + 1, i, a, d =>
      if 0 < d.remain then
        let r := f d (a.getD i (.vstruct .nil))
        runElemsFn f cnt (i + 1) (a.set i r.1) r.2
      else (a, d)

/-- The tagged-field loop of the flexible struct decoder
(decode.go lines 445-457): `n` entries, each a (tag id, size) pair of
unsigned varints; a registered tag id decodes into its field, an unregistered
one has exactly `size` bytes read and dropped. -/
def runTaggedFn (tagged : List (Int × Nat × (Decoder → Val → Val × Decoder))) :
    Nat → Decoder → Val → Val × Decoder
  | 0, d, v => (v, d)
  | n + 1, d, v =>
      let rt := readUnsignedVarInt d
      let rs := readUnsignedVarInt rt.2
      match tagged.find? (fun e => decide (e.1 = toInt64 rt.1)) with
      | some e =>
          let rf := e.2.2 rs.2 (getField v e.2.1)
          runTaggedFn tagged n rf.2 (setField v e.2.1 rf.1)
      | none =>
          let rd := dread rs.2 (toInt64 rs.1).toNat
          runTaggedFn tagged n rd.2 v

/- Execution of a compiled plan: the closure returned by `decodeFuncOf`
applied to (cursor, destination).  `runFields` decodes the positional fields
in order; `taggedFns` turns the registered extension list into the id-keyed
decoder lookup used by the tagged loop.  The struct body matches
`structDecodeFuncOf`'s returned closure: positional fields first, then, only
in flexible mode, the tagged section with its unsigned-varint entry count. -/
mutual
def runPlan : Plan → Decoder → Val → Val × Decoder
  | .pbool => fun d _ => let r := readBool d; (.vbool r.1, r.2)
  | .pint8 => fun d _ => let r := readInt8 d; (.vint8 r.1, r.2)
  | .pint16 => fun d _ => let r := readInt16 d; (.vint16 r.1, r.2)
  | .pint32 => fun d _ => let r := readInt32 d; (.vint32 r.1, r.2)
  | .pint64 => fun d _ => let r := readInt64 d; (.vint64 r.1, r.2)
  | .pstring => fun d _ => let r := readString d; (.vstring r.1, r.2)
  | .pcompactString => fun d _ => let r := readCompactString d; (.vstring r.1, r.2)
  | .pbytes => fun d _ => let r := readBytes d; (.vbytes r.1, r.2)
  | .pcompactBytes => fun d _ => let r := readCompactBytes d; (.vbytes r.1, r.2)
  | .pstruct ord flex tagged => fun d v =>
      let r := runFields ord d v
      if flex then
        let rn := readUnsignedVarInt r.2
        runTaggedFn (taggedFns tagged) (toInt64 rn.1).toNat rn.2 r.1
      else r
  | .parray edef ep => fun d _ =>
      let f := runPlan ep
      let rn := readInt32 d
      if rn.1 < 0 then (.varray .nil, rn.2)
      else
        let ra := runElemsFn f rn.1.toNat 0 (Vals.replicate rn.1.toNat edef) rn.2
        (.varray ra.1, ra.2)
  | .pcompactArray edef ep => fun d _ =>
      let f := runPlan ep
      let rn := readUnsignedVarInt d
      if rn.1 < 1 then (.varray .nil, rn.2)
      else
        let c := (toInt64 (rn.1 - 1)).toNat
        let ra := runElemsFn f c 0 (Vals.replicate c edef) rn.2
        (.varray ra.1, ra.2)

def runFields : FieldsPlan → Decoder → Val → Val × Decoder
  | .nil, d, v => (v, d)
  | .cons i p rest, d, v =>
      let r := runPlan p d (getField v i)
      runFields rest r.2 (setField v i r.1)

def taggedFns : TaggedPlan → List (Int × Nat × (Decoder → Val → Val × Decoder))
  | .nil => []
  | .cons t i p rest => (t, i, runPlan p) :: taggedFns rest
end

/-- The plan-cache key `versionedType`: the shape identity paired with the
version.  Note there is no flexible flag in the key. -/
structure VersionedType where
  shape : Shape
  version : Int
deriving DecidableEq, Repr

/-- Modelled from the spec: `dontExpectEOF` (defined in the repository's
protocol.go, which is not under src/).  Per sections 4.6 and 7 of the spec, a
plain end-of-input left in the cursor's error slot is converted into the
distinct "unexpected end of input" error — only an end-of-input that the plan
never observed (nil sticky error) yields a nil result — and every other error
is surfaced unchanged. -/
def dontExpectEOF : Option DErr → Option DErr
  | some .eof => some .unexpectedEOF
  | e => e

/-- Go `Unmarshal` (decode.go lines 501-543) with the process-wide plan cache
threaded explicitly (`unmarshalers`, an atomically published
`map[versionedType]decodeFunc`, modelled as an association list): look up
`(shape, version)`; on a miss compile with `flexible = false` and publish a
map extended with the new entry; bind a pooled decoder to a `bytes.Reader`
over `data` with `remain = len(data)` (so no `discarder` capability); run the
plan against the destination; return `dontExpectEOF` of the sticky error.
The pool only recycles fully reset cursors, so the fresh-cursor binding is
the general one. -/
def UnmarshalWith (cache : List (VersionedType × Plan)) (data : List Nat)
    (version : Int) (shape : Shape) (dest : Val) :
    (Option DErr × Val) × List (VersionedType × Plan) :=
  let key : VersionedType := ⟨shape, version⟩
  let hit := cache.find? (fun e => decide (e.1 = key))
  let plan := match hit with
    | some e => e.2
    | none => compile shape version false
  let cache' := match hit with
    | some _ => cache
    | none => (key, plan) :: cache
  let d : Decoder := { source := data, hasDiscard := false,
                       remain := (data.length : Int), err := none }
  let r := runPlan plan d dest
  ((dontExpectEOF r.2.err, r.1), cache')

/-- Go `Unmarshal` on a cold cache (a hit returns the identical compiled plan,
see `UnmarshalWith`). -/
def Unmarshal (data : List Nat) (version : Int) (shape : Shape) (dest : Val) :
    Option DErr × Val :=
  (UnmarshalWith [] data version shape dest).1

/- A plan uses only the classic (non-flexible) encodings: no compact
string/bytes/array codec anywhere and every struct plan compiled with the
flexible flag off (so its closure never reads a tagged-field section). -/
mutual
def Plan.classicOnly : Plan → Bool
  | .pcompactString => false
  | .pcompactBytes => false
  | .pcompactArray _ _ => false
  | .pstruct ord flex tagged =>
      !flex && FieldsPlan.classicOnly ord && TaggedPlan.classicOnly tagged
  | .parray _ ep => ep.classicOnly
  | _ => true

def FieldsPlan.classicOnly : FieldsPlan → Bool
  | .nil => true
  | .cons _ p rest => p.classicOnly && rest.classicOnly

def TaggedPlan.classicOnly : TaggedPlan → Bool
  | .nil => true
  | .cons _ _ p rest => p.classicOnly && rest.classicOnly
end

/-!  ## Closed forms for the reader on the `Unmarshal` binding

`Unmarshal` binds the cursor to a `bytes.Reader` with `remain = len(data)`;
every reachable healthy state in that pipeline has `remain` equal to the
number of bytes the reader still holds.  `bound` is such a state. -/

/-- A healthy cursor whose budget equals the bytes the source still holds. -/
def bound (src : List Nat) (hd : Bool) : Decoder :=
  ⟨src, hd, (src.length : Int), none⟩

/-- The latched state after a failure has consumed or abandoned the frame. -/
def failed (hd : Bool) (e : DErr) : Decoder :=
  ⟨[], hd, 0, some e⟩

theorem bound_eta (d : Decoder) (hE : d.err = none)
    (hI : d.remain = (d.source.length : Int)) :
    d = bound d.source d.hasDiscard := by
  cases d
  simp_all [bound]

theorem setError_none (d : Decoder) : setError d none = d := by
  cases h : d.err <;> simp [setError, h]

theorem setError_already (d : Decoder) (e0 : DErr) (h : d.err = some e0)
    (e : Option DErr) : setError d e = d := by
  cases e <;> simp [setError, h]

theorem setError_latch_empty (hd : Bool) (e : DErr) :
    setError ⟨[], hd, 0, none⟩ (some e) = ⟨[], hd, 0, some e⟩ := by
  cases hd <;> rfl

theorem setError_latch_nodiscard (src : List Nat) (rem : Int) (e : DErr) :
    setError ⟨src, false, rem, none⟩ (some e) = ⟨src, false, rem, some e⟩ := by
  rfl

theorem dRead_err (d : Decoder) (e : DErr) (h : d.err = some e) (k : Nat) :
    dRead d k = (([], some e), d) := by
  simp [dRead, h]

theorem readLoopF_zero (fuel : Nat) (d : Decoder) :
    readLoopF fuel d 0 = (([], none), d) := by
  cases fuel <;> rfl

end KafkaGo

namespace KafkaGo

theorem dRead_nil (hd : Bool) (k : Nat) :
    dRead (bound [] hd) k = (([], some .eof), bound [] hd) := by
  simp [dRead, bound]

theorem dRead_bound (src : List Nat) (hd : Bool) (k : Nat) (h0 : src ≠ []) :
    dRead (bound src hd) k =
      ((src.take (min k src.length), none),
       bound (src.drop (min k src.length)) hd) := by
  have hl : 0 < src.length := List.length_pos.mpr h0
  simp only [dRead, bound]
  have h1 : ¬((src.length : Int) = 0) := by
    intro h
    have : src.length = 0 := by exact_mod_cast h
    omega
  rw [if_neg h1]
  have h2 : src.isEmpty = false := by
    simpa [List.isEmpty_iff] using h0
  simp only [h2, Bool.false_eq_true, if_false]
  have hmin : min (if (k : Int) > (src.length : Int) then ((src.length : Int)).toNat else k)
      src.length = min k src.length := by
    split
    · next h =>
      simp only [Int.toNat_natCast]
      omega
    · next h =>
      omega
  rw [hmin]
  have hrem : ((src.length : Int)) - (min k src.length : Nat) =
      ((src.drop (min k src.length)).length : Int) := by
    rw [List.length_drop]
    push_cast
    omega
  rw [hrem]

end KafkaGo

namespace KafkaGo

theorem readLoopF_closed (fuel k : Nat) (src : List Nat) (hd : Bool)
    (hf : k ≤ fuel) :
    readLoopF fuel (bound src hd) k =
      if k ≤ src.length then ((src.take k, none), bound (src.drop k) hd)
      else ((src, some .eof), bound [] hd) := by
  match k, hf with
  | 0, _ =>
    rw [readLoopF_zero]
    simp [bound]
  | k + 1, hf =>
    obtain ⟨f, rfl⟩ : ∃ f, fuel = f + 1 := ⟨fuel - 1, by omega⟩
    by_cases hnil : src = []
    · subst hnil
      simp [readLoopF, dRead_nil]
    · by_cases hk : k + 1 ≤ src.length
      · have hmin : min (k + 1) src.length = k + 1 := by omega
        have hlen : (src.take (k + 1)).length = k + 1 := by
          simp [List.length_take, hmin]
        simp only [readLoopF, dRead_bound _ _ _ hnil, hmin, hlen]
        simp only [if_neg (by omega : ¬(k + 1 = 0)), Nat.sub_self,
          readLoopF_zero]
        simp [hk]
      · have hl : 0 < src.length := List.length_pos.mpr hnil
        have hmin : min (k + 1) src.length = src.length := by omega
        have htake : src.take src.length = src := List.take_length src
        have hdrop : src.drop src.length = [] := List.drop_length src
        simp only [readLoopF, dRead_bound _ _ _ hnil, hmin, htake, hdrop]
        simp only [if_neg (by omega : ¬(src.length = 0))]
        obtain ⟨t, ht⟩ : ∃ t, k + 1 - src.length = t + 1 :=
          ⟨k - src.length, by omega⟩
        rw [ht]
        obtain ⟨f', rfl⟩ : ∃ f', f = f' + 1 := ⟨f - 1, by omega⟩
        simp only [readLoopF, dRead_nil]
        simp [hk]

end KafkaGo

namespace KafkaGo

/- The result state of a failed fixed-width or bulk read on the Unmarshal
binding: frame abandoned, error latched. -/
theorem setError_bound_nil (hd : Bool) (e : DErr) :
    setError (bound [] hd) (some e) = ⟨[], hd, 0, some e⟩ := by
  cases hd <;> rfl

theorem ioReadFull_bound (src : List Nat) (hd : Bool) (k : Nat) :
    ioReadFull (bound src hd) k =
      if k ≤ src.length then ((src.take k, none), bound (src.drop k) hd)
      else ((src, some (if src.length = 0 then DErr.eof else .unexpectedEOF)),
            bound [] hd) := by
  by_cases hk : k ≤ src.length
  · simp [ioReadFull, readLoopF_closed k k src hd le_rfl, hk, List.length_take]
  · by_cases h0 : src.length = 0
    · rw [List.length_eq_zero] at h0
      subst h0
      simp at hk
      simp [ioReadFull, readLoopF_closed k k [] hd le_rfl, hk]
    · simp [ioReadFull, readLoopF_closed k k src hd le_rfl, hk, h0]

theorem readFull_bound (src : List Nat) (hd : Bool) (k : Nat) :
    readFull (bound src hd) k =
      if k ≤ src.length then ((src.take k, true), bound (src.drop k) hd)
      else ((src, false),
            ⟨[], hd, 0, some (if src.length = 0 then DErr.eof else .unexpectedEOF)⟩) := by
  by_cases hk : k ≤ src.length
  · simp [readFull, ioReadFull_bound, hk, List.length_take, setError_none]
  · simp only [readFull, ioReadFull_bound, if_neg hk, setError_bound_nil]
    simp
    omega

theorem dread_bound (src : List Nat) (hd : Bool) (k : Nat) :
    dread (bound src hd) k =
      if k ≤ src.length then (src.take k, bound (src.drop k) hd)
      else (src,
            ⟨[], hd, 0, some (if src.length = 0 then DErr.eof else .unexpectedEOF)⟩) := by
  by_cases hk : k ≤ src.length
  · simp [dread, ioReadFull_bound, hk, setError_none]
  · simp only [dread, ioReadFull_bound, if_neg hk, setError_bound_nil]

theorem ioReadFull_err (d : Decoder) (e : DErr) (h : d.err = some e) (k : Nat) :
    ioReadFull d k =
      if k = 0 then (([], none), d) else (([], some e), d) := by
  unfold ioReadFull
  match k with
  | 0 =>
    rw [readLoopF_zero]
    simp
  | k + 1 =>
    simp only [readLoopF, dRead_err d e h]
    simp

theorem readFull_err (d : Decoder) (e : DErr) (h : d.err = some e) (k : Nat) :
    readFull d k = (([], decide (k = 0)), d) := by
  unfold readFull
  rw [ioReadFull_err d e h]
  match k with
  | 0 => simp [setError_none]
  | k + 1 => simp [setError_already d e h]

theorem dread_err (d : Decoder) (e : DErr) (h : d.err = some e) (k : Nat) :
    dread d k = ([], d) := by
  unfold dread
  rw [ioReadFull_err d e h]
  match k with
  | 0 => simp [setError_none]
  | k + 1 => simp [setError_already d e h]

end KafkaGo

namespace KafkaGo

theorem readByte_bound_cons (b : Nat) (rest : List Nat) (hd : Bool) :
    readByte (bound (b :: rest) hd) = (b, bound rest hd) := by
  simp [readByte, readFull_bound]

theorem readByte_bound_nil (hd : Bool) :
    readByte (bound [] hd) = (0, ⟨[], hd, 0, some .eof⟩) := by
  simp [readByte, readFull_bound]

theorem readInt8_bound (src : List Nat) (hd : Bool) :
    readInt8 (bound src hd) =
      if 1 ≤ src.length then
        (toSigned 8 (beNat (src.take 1)), bound (src.drop 1) hd)
      else (0, ⟨[], hd, 0, some (if src.length = 0 then DErr.eof else .unexpectedEOF)⟩) := by
  by_cases h : 1 ≤ src.length <;> simp [readInt8, readFull_bound, h]

theorem readInt16_bound (src : List Nat) (hd : Bool) :
    readInt16 (bound src hd) =
      if 2 ≤ src.length then
        (toSigned 16 (beNat (src.take 2)), bound (src.drop 2) hd)
      else (0, ⟨[], hd, 0, some (if src.length = 0 then DErr.eof else .unexpectedEOF)⟩) := by
  by_cases h : 2 ≤ src.length <;> simp [readInt16, readFull_bound, h]

theorem readInt32_bound (src : List Nat) (hd : Bool) :
    readInt32 (bound src hd) =
      if 4 ≤ src.length then
        (toSigned 32 (beNat (src.take 4)), bound (src.drop 4) hd)
      else (0, ⟨[], hd, 0, some (if src.length = 0 then DErr.eof else .unexpectedEOF)⟩) := by
  by_cases h : 4 ≤ src.length <;> simp [readInt32, readFull_bound, h]

theorem readInt64_bound (src : List Nat) (hd : Bool) :
    readInt64 (bound src hd) =
      if 8 ≤ src.length then
        (toSigned 64 (beNat (src.take 8)), bound (src.drop 8) hd)
      else (0, ⟨[], hd, 0, some (if src.length = 0 then DErr.eof else .unexpectedEOF)⟩) := by
  by_cases h : 8 ≤ src.length <;> simp [readInt64, readFull_bound, h]

theorem readByte_err (d : Decoder) (e : DErr) (h : d.err = some e) :
    readByte d = (0, d) := by
  simp [readByte, readFull_err d e h]

theorem readBool_err (d : Decoder) (e : DErr) (h : d.err = some e) :
    readBool d = (false, d) := by
  simp [readBool, readByte_err d e h]

theorem readInt8_err (d : Decoder) (e : DErr) (h : d.err = some e) :
    readInt8 d = (0, d) := by
  simp [readInt8, readFull_err d e h]

theorem readInt16_err (d : Decoder) (e : DErr) (h : d.err = some e) :
    readInt16 d = (0, d) := by
  simp [readInt16, readFull_err d e h]

theorem readInt32_err (d : Decoder) (e : DErr) (h : d.err = some e) :
    readInt32 d = (0, d) := by
  simp [readInt32, readFull_err d e h]

theorem readInt64_err (d : Decoder) (e : DErr) (h : d.err = some e) :
    readInt64 d = (0, d) := by
  simp [readInt64, readFull_err d e h]

theorem uvarLoop_err (d : Decoder) (e : DErr) (h : d.err = some e)
    (fuel x s : Nat) :
    uvarLoop d fuel x s = (if fuel = 0 then none else some x, d) := by
  match fuel with
  | 0 => simp [uvarLoop]
  | fuel + 1 => simp [uvarLoop, readByte_err d e h]

theorem readUnsignedVarInt_err (d : Decoder) (e : DErr) (h : d.err = some e) :
    readUnsignedVarInt d = (0, d) := by
  unfold readUnsignedVarInt
  simp only [uvarLoop_err d e h]
  by_cases h0 : (if (11 : Int) > d.remain then d.remain else 11).toNat = 0
  · simp [h0, setError_already d e h]
  · simp [h0]

theorem readVarInt_err (d : Decoder) (e : DErr) (h : d.err = some e) :
    readVarInt d = (0, d) := by
  unfold readVarInt
  simp only [uvarLoop_err d e h]
  by_cases h0 : (if (11 : Int) > d.remain then d.remain else 11).toNat = 0
  · simp [h0, setError_already d e h]
  · simp [h0, zigzag]

theorem readString_err (d : Decoder) (e : DErr) (h : d.err = some e) :
    readString d = ([], d) := by
  simp [readString, readInt16_err d e h, dread_err d e h]

theorem readCompactString_err (d : Decoder) (e : DErr) (h : d.err = some e) :
    readCompactString d = ([], d) := by
  simp [readCompactString, readUnsignedVarInt_err d e h]

theorem readBytes_err (d : Decoder) (e : DErr) (h : d.err = some e) :
    readBytes d = (some [], d) := by
  simp [readBytes, readInt32_err d e h, dread_err d e h]

theorem readCompactBytes_err (d : Decoder) (e : DErr) (h : d.err = some e) :
    readCompactBytes d = (none, d) := by
  simp [readCompactBytes, readUnsignedVarInt_err d e h]

end KafkaGo

namespace KafkaGo

theorem land128_eq_zero : ∀ b < 128, b &&& 128 = 0 := by decide

set_option maxRecDepth 4096 in
theorem land128_ne_zero : ∀ b < 256, 128 ≤ b → b &&& 128 ≠ 0 := by decide

theorem discardRaw_err (d : Decoder) (e : DErr) (h : d.err = some e) (n : Int) :
    ((discardRaw d n).1).err = some e := by
  unfold discardRaw
  by_cases hdc : d.hasDiscard
  · simp [hdc, h]
  · simp only [hdc, Bool.false_eq_true, if_false]
    have : ioCopyF (d.source.length + 1) d =
        ((0, if e = .eof then none else some e), d) := by
      simp [ioCopyF, dRead_err d e h]
    simp [this, h]

theorem setError_latch_err (d : Decoder) (e : DErr) (h : d.err = none) :
    (setError d (some e)).err = some e := by
  unfold setError
  rw [h]
  exact discardRaw_err _ e rfl _

theorem readUnsignedVarInt_single (b : Nat) (rest : List Nat) (hd : Bool)
    (hb : b < 128) :
    readUnsignedVarInt (bound (b :: rest) hd) = (b, bound rest hd) := by
  unfold readUnsignedVarInt
  have hrem : (bound (b :: rest) hd).remain = ((rest.length + 1 : Nat) : Int) := by
    simp [bound]
  have hfuel : ((if (11 : Int) > (bound (b :: rest) hd).remain
      then (bound (b :: rest) hd).remain else 11)).toNat =
      min 11 (rest.length + 1) := by
    rw [hrem]
    split <;> omega
  obtain ⟨f, hf⟩ : ∃ f, min 11 (rest.length + 1) = f + 1 :=
    ⟨min 11 (rest.length + 1) - 1, by omega⟩
  have hba : b &&& 128 = 0 := land128_eq_zero b hb
  simp only [hfuel, hf, uvarLoop, readByte_bound_cons]
  simp [hba, Nat.mod_eq_of_lt]
  omega

theorem uvarLoop_cont (fuel : Nat) :
    ∀ (src : List Nat) (hd : Bool) (x s : Nat), fuel ≤ src.length →
    (∀ b ∈ src.take fuel, 128 ≤ b) → (∀ b ∈ src, b < 256) →
    uvarLoop (bound src hd) fuel x s =
      (none, bound (src.drop fuel) hd) := by
  induction fuel with
  | zero => intro src hd x s _ _ _; simp [uvarLoop]
  | succ f ih =>
    intro src hd x s hlen hcont hbytes
    match src with
    | b :: rest =>
      have hb256 : b < 256 := hbytes b (by simp)
      have hbge : 128 ≤ b := hcont b (by
        rw [List.take_succ_cons]
        exact List.mem_cons_self _ _)
      have hba : b &&& 128 ≠ 0 := land128_ne_zero b hb256 hbge
      simp only [uvarLoop, readByte_bound_cons]
      rw [if_neg (by simpa using hba)]
      rw [ih rest hd _ _ (by simpa using hlen)
        (by intro c hc
            exact hcont c (by
              rw [List.take_succ_cons]
              exact List.mem_cons_of_mem _ hc))
        (by intro c hc; exact hbytes c (List.mem_cons_of_mem _ hc))]
      simp

theorem uvarLoop_not_cont (fuel : Nat) :
    ∀ (src : List Nat) (hd : Bool) (x s : Nat), fuel ≤ src.length →
    (∀ b ∈ src, b < 256) → ¬(∀ b ∈ src.take fuel, 128 ≤ b) →
    ∃ y d', uvarLoop (bound src hd) fuel x s = (some y, d') ∧ d'.err = none := by
  induction fuel with
  | zero => intro src hd x s _ _ hno; simp at hno
  | succ f ih =>
    intro src hd x s hlen hbytes hno
    match src with
    | [] => simp at hlen
    | b :: rest =>
      by_cases hb : b < 128
      · refine ⟨x ||| (b <<< s) % 2 ^ 64, bound rest hd, ?_, rfl⟩
        simp [uvarLoop, readByte_bound_cons, land128_eq_zero b hb]
      · have hbge : 128 ≤ b := by omega
        have hb256 : b < 256 := hbytes b (by simp)
        have hba : b &&& 128 ≠ 0 := land128_ne_zero b hb256 hbge
        simp only [uvarLoop, readByte_bound_cons]
        rw [if_neg (by simpa using hba)]
        apply ih rest hd _ _ (by simpa using hlen)
          (by intro c hc; exact hbytes c (List.mem_cons_of_mem _ hc))
        intro hall
        apply hno
        intro c hc
        rw [List.take_succ_cons] at hc
        rcases List.mem_cons.mp hc with hc | hc
        · subst hc
          omega
        · exact hall c hc

end KafkaGo

namespace KafkaGo

theorem fuelMin (src : List Nat) (hd : Bool) :
    ((if (11 : Int) > (bound src hd).remain then (bound src hd).remain else 11)).toNat
      = min 11 src.length := by
  simp only [bound]
  split <;> omega

theorem readUnsignedVarInt_cont_iff (src : List Nat) (hd : Bool)
    (hbytes : ∀ b ∈ src, b < 256) :
    (readUnsignedVarInt (bound src hd)).2.err = some .cannotDecodeUVarint ↔
      ∀ b ∈ src.take (min 11 src.length), 128 ≤ b := by
  constructor
  · intro h
    by_contra hno
    obtain ⟨y, d', heq, herr⟩ :=
      uvarLoop_not_cont (min 11 src.length) src hd 0 0 (by omega) hbytes hno
    have hr : readUnsignedVarInt (bound src hd) = (y, d') := by
      unfold readUnsignedVarInt
      simp only [fuelMin src hd, heq]
    rw [hr] at h
    rw [herr] at h
    exact Option.noConfusion h
  · intro hall
    have heq := uvarLoop_cont (min 11 src.length) src hd 0 0 (by omega) hall hbytes
    have hr : readUnsignedVarInt (bound src hd) =
        (0, setError (bound (src.drop (min 11 src.length)) hd)
              (some .cannotDecodeUVarint)) := by
      unfold readUnsignedVarInt
      simp only [fuelMin src hd, heq]
    rw [hr]
    exact setError_latch_err _ _ rfl

theorem readVarInt_cont_iff (src : List Nat) (hd : Bool)
    (hbytes : ∀ b ∈ src, b < 256) :
    (readVarInt (bound src hd)).2.err = some .cannotDecodeVarint ↔
      ∀ b ∈ src.take (min 11 src.length), 128 ≤ b := by
  constructor
  · intro h
    by_contra hno
    obtain ⟨y, d', heq, herr⟩ :=
      uvarLoop_not_cont (min 11 src.length) src hd 0 0 (by omega) hbytes hno
    have hr : readVarInt (bound src hd) = (zigzag y, d') := by
      unfold readVarInt
      simp only [fuelMin src hd, heq]
    rw [hr] at h
    rw [herr] at h
    exact Option.noConfusion h
  · intro hall
    have heq := uvarLoop_cont (min 11 src.length) src hd 0 0 (by omega) hall hbytes
    have hr : readVarInt (bound src hd) =
        (0, setError (bound (src.drop (min 11 src.length)) hd)
              (some .cannotDecodeVarint)) := by
      unfold readVarInt
      simp only [fuelMin src hd, heq]
    rw [hr]
    exact setError_latch_err _ _ rfl

theorem runPlan_pint32 (d : Decoder) (v : Val) :
    runPlan .pint32 d v = (.vint32 (readInt32 d).1, (readInt32 d).2) := by
  simp [runPlan]

theorem runPlan_pstring (d : Decoder) (v : Val) :
    runPlan .pstring d v = (.vstring (readString d).1, (readString d).2) := by
  simp [runPlan]

end KafkaGo

namespace KafkaGo

/- Sticky-error no-op lemmas for the loops and plans: with the error slot
set, every operation leaves the cursor untouched. -/

theorem runElemsFn_frozen (f : Decoder → Val → Val × Decoder)
    (hf : ∀ d v e, d.err = some e → (f d v).2 = d) (cnt : Nat) :
    ∀ i a d e, d.err = some e → (runElemsFn f cnt i a d).2 = d := by
  induction cnt with
  | zero => intro i a d e h; rfl
  | succ c ih =>
    intro i a d e h
    by_cases hr : 0 < d.remain
    · simp only [runElemsFn, if_pos hr]
      rw [show (f d (a.getD i (.vstruct .nil))).2 = d from hf _ _ e h] at *
      exact ih _ _ _ e h
    · simp [runElemsFn, hr]

theorem pair_eta_snd {α β : Type} (x : α × β) (b : β) (h : x.2 = b) :
    x = (x.1, b) := by
  cases x
  cases h
  rfl

theorem runTaggedFn_frozen (tl : List (Int × Nat × (Decoder → Val → Val × Decoder)))
    (hf : ∀ q ∈ tl, ∀ d v e, d.err = some e → (q.2.2 d v).2 = d) (n : Nat) :
    ∀ d v e, d.err = some e → (runTaggedFn tl n d v).2 = d := by
  induction n with
  | zero => intro d v e h; rfl
  | succ m ih =>
    intro d v e h
    simp only [runTaggedFn, readUnsignedVarInt_err d e h]
    match hq : tl.find? (fun q => decide (q.1 = toInt64 0)) with
    | some q =>
      have hmem : q ∈ tl := List.mem_of_find?_eq_some hq
      simp only [hq]
      rw [pair_eta_snd _ _ (hf q hmem d (getField v q.2.1) e h)]
      exact ih _ _ e h
    | none =>
      simp only [hq, dread_err d e h]
      exact ih _ _ e h

mutual
theorem runPlan_frozen (p : Plan) :
    ∀ d v e, d.err = some e → (runPlan p d v).2 = d := by
  match p with
  | .pbool => intro d v e h; simp [runPlan, readBool_err d e h]
  | .pint8 => intro d v e h; simp [runPlan, readInt8_err d e h]
  | .pint16 => intro d v e h; simp [runPlan, readInt16_err d e h]
  | .pint32 => intro d v e h; simp [runPlan, readInt32_err d e h]
  | .pint64 => intro d v e h; simp [runPlan, readInt64_err d e h]
  | .pstring => intro d v e h; simp [runPlan, readString_err d e h]
  | .pcompactString => intro d v e h; simp [runPlan, readCompactString_err d e h]
  | .pbytes => intro d v e h; simp [runPlan, readBytes_err d e h]
  | .pcompactBytes => intro d v e h; simp [runPlan, readCompactBytes_err d e h]
  | .pstruct ord flex tagged =>
    intro d v e h
    simp only [runPlan]
    rw [pair_eta_snd _ _ (runFields_frozen ord d v e h)]
    by_cases hflex : flex
    · simp only [hflex, if_true]
      simp only [readUnsignedVarInt_err d e h]
      rfl
    · simp [hflex]
  | .parray edef ep =>
    intro d v e h
    simp only [runPlan, readInt32_err d e h]
    norm_num [runElemsFn]
  | .pcompactArray edef ep =>
    intro d v e h
    simp only [runPlan, readUnsignedVarInt_err d e h]
    norm_num

theorem runFields_frozen (fp : FieldsPlan) :
    ∀ d v e, d.err = some e → (runFields fp d v).2 = d := by
  match fp with
  | .nil => intro d v e h; rfl
  | .cons i p rest =>
    intro d v e h
    simp only [runFields]
    rw [pair_eta_snd _ _ (runPlan_frozen p d (getField v i) e h)]
    exact runFields_frozen rest d _ e h
end

end KafkaGo

namespace KafkaGo

/- Budget bookkeeping: every operation decrements `remain` by exactly the
bytes it drew through `Read`, and never drives it negative. -/

theorem dRead_spec (d : Decoder) (k : Nat) (h : 0 ≤ d.remain) :
    (dRead d k).2.remain = d.remain - ((dRead d k).1.1.length : Int) ∧
      ((dRead d k).1.1.length : Int) ≤ d.remain ∧
      (dRead d k).2.err = d.err ∧
      (dRead d k).2.source.length + (dRead d k).1.1.length = d.source.length ∧
      (dRead d k).2.hasDiscard = d.hasDiscard := by
  obtain ⟨src, hdc, rem, err⟩ := d
  simp only at h
  match err with
  | some e =>
    simp [dRead]
    omega
  | none =>
    simp only [dRead]
    by_cases h0 : rem = 0
    · simp [h0]
    · rw [if_neg h0]
      by_cases hs : src.isEmpty
      · simp [hs]
        omega
      · simp only [hs, Bool.false_eq_true, if_false]
        have hk'le : ((if ((k : Nat) : Int) > rem then rem.toNat else k : Nat) : Int)
            ≤ rem := by
          split <;> omega
        simp only [List.length_take, List.length_drop]
        refine ⟨?_, ?_, ?_, ?_, ?_⟩ <;> first | trivial | (push_cast; omega)

theorem dRead_remNonneg (d : Decoder) (k : Nat) (h : 0 ≤ d.remain) :
    0 ≤ (dRead d k).2.remain := by
  have := dRead_spec d k h
  omega

theorem readLoopF_spec (fuel : Nat) :
    ∀ (k : Nat) (d : Decoder), 0 ≤ d.remain →
    (readLoopF fuel d k).2.remain
        = d.remain - ((readLoopF fuel d k).1.1.length : Int) ∧
      ((readLoopF fuel d k).1.1.length : Int) ≤ d.remain := by
  induction fuel with
  | zero =>
    intro k d h
    match k with
    | 0 => rw [readLoopF_zero]; simp [h]
    | k + 1 => simp only [readLoopF]; simp [h]
  | succ f ih =>
    intro k d h
    match k with
    | 0 => rw [readLoopF_zero]; simp [h]
    | k + 1 =>
      simp only [readLoopF]
      have hspec := dRead_spec d (k + 1) h
      match hr : dRead d (k + 1) with
      | ((bs, some e), d1) =>
        rw [hr] at hspec
        dsimp only at hspec ⊢
        omega
      | ((bs, none), d1) =>
        rw [hr] at hspec
        try dsimp only at hspec
        by_cases hb : bs.length = 0
        · simp [hb]
          omega
        · simp only [if_neg hb]
          have h1 : 0 ≤ d1.remain := by omega
          have := ih (k + 1 - bs.length) d1 h1
          try dsimp only
          simp only [List.length_append]
          push_cast
          omega

theorem ioReadFull_spec (d : Decoder) (k : Nat) (h : 0 ≤ d.remain) :
    (ioReadFull d k).2.remain
        = d.remain - ((ioReadFull d k).1.1.length : Int) ∧
      ((ioReadFull d k).1.1.length : Int) ≤ d.remain := by
  have := readLoopF_spec k k d h
  unfold ioReadFull
  dsimp only
  split
  · simpa using this
  split
  · simpa using this
  · exact this

theorem dRead_some_nil (d : Decoder) (k : Nat) (e : DErr)
    (h : (dRead d k).1.2 = some e) : (dRead d k).1.1 = [] := by
  unfold dRead at h ⊢
  match hd : d.err with
  | some e0 => simp [hd]
  | none =>
    simp only [hd] at h ⊢
    by_cases h0 : d.remain = 0
    · simp [h0]
    · simp only [if_neg h0] at h ⊢
      by_cases hs : d.source.isEmpty
      · simp [hs]
      · simp [hs] at h

theorem ioCopyF_spec (fuel : Nat) :
    ∀ (d : Decoder), 0 ≤ d.remain →
    (ioCopyF fuel d).2.remain = d.remain - ((ioCopyF fuel d).1.1 : Int) ∧
      ((ioCopyF fuel d).1.1 : Int) ≤ d.remain := by
  induction fuel with
  | zero => intro d h; simp [ioCopyF, h]
  | succ f ih =>
    intro d h
    simp only [ioCopyF]
    have hspec := dRead_spec d 32768 h
    match hr : dRead d 32768 with
    | ((bs, some e), d1) =>
      rw [hr] at hspec
      have hnil : bs = [] := by
        have h2 := dRead_some_nil d 32768 e (by rw [hr])
        rw [hr] at h2
        exact h2
      subst hnil
      try dsimp only at hspec
      try dsimp only
      simp only [List.length_nil] at hspec
      omega
    | ((bs, none), d1) =>
      rw [hr] at hspec
      try dsimp only at hspec
      by_cases hb : bs.length = 0
      · simp [hb]
        omega
      · simp only [if_neg hb]
        have h1 : 0 ≤ d1.remain := by omega
        have := ih d1 h1
        try dsimp only
        push_cast
        omega

theorem discardRaw_remNonneg (d : Decoder) (n : Int) (h : 0 ≤ d.remain) :
    0 ≤ (discardRaw d n).1.remain := by
  unfold discardRaw
  by_cases hdc : d.hasDiscard
  · simp only [hdc, if_true]
    split <;> omega
  · simp only [hdc, Bool.false_eq_true, if_false]
    have := ioCopyF_spec (d.source.length + 1) d h
    omega

theorem setError_remNonneg (d : Decoder) (e : Option DErr) (h : 0 ≤ d.remain) :
    0 ≤ (setError d e).remain := by
  unfold setError
  match d.err, e with
  | none, some er => exact discardRaw_remNonneg _ _ h
  | none, none => exact h
  | some e0, none => exact h
  | some e0, some er => exact h

theorem discard_remNonneg (d : Decoder) (n : Int) (h : 0 ≤ d.remain) :
    0 ≤ (discard d n).remain := by
  unfold discard
  exact setError_remNonneg _ _ (discardRaw_remNonneg d n h)

theorem discardAll_remNonneg (d : Decoder) (h : 0 ≤ d.remain) :
    0 ≤ (discardAll d).remain :=
  discard_remNonneg d d.remain h

theorem readFull_remNonneg (d : Decoder) (k : Nat) (h : 0 ≤ d.remain) :
    0 ≤ (readFull d k).2.remain := by
  unfold readFull
  have := ioReadFull_spec d k h
  exact setError_remNonneg _ _ (by omega)

theorem dread_remNonneg (d : Decoder) (k : Nat) (h : 0 ≤ d.remain) :
    0 ≤ (dread d k).2.remain := by
  unfold dread
  have := ioReadFull_spec d k h
  exact setError_remNonneg _ _ (by omega)

theorem writeTo_remNonneg (d : Decoder) (n : Nat) (h : 0 ≤ d.remain) :
    0 ≤ (writeTo d n).remain := by
  unfold writeTo
  by_cases hn : (n : Int) < d.remain
  · simp only [hn, if_true]
    have hcopy := ioCopyF_spec (d.source.length + 1)
      { d with remain := (n : Int) } (by positivity)
    apply setError_remNonneg
    simp only at hcopy ⊢
    omega
  · simp only [hn, if_false]
    have hcopy := ioCopyF_spec (d.source.length + 1) d h
    apply setError_remNonneg
    simp only at hcopy ⊢
    omega

theorem readByte_remNonneg (d : Decoder) (h : 0 ≤ d.remain) :
    0 ≤ (readByte d).2.remain := by
  unfold readByte
  exact readFull_remNonneg d 1 h

theorem readBool_remNonneg (d : Decoder) (h : 0 ≤ d.remain) :
    0 ≤ (readBool d).2.remain := by
  unfold readBool
  exact readByte_remNonneg d h

theorem readInt8_remNonneg (d : Decoder) (h : 0 ≤ d.remain) :
    0 ≤ (readInt8 d).2.remain := readFull_remNonneg d 1 h

theorem readInt16_remNonneg (d : Decoder) (h : 0 ≤ d.remain) :
    0 ≤ (readInt16 d).2.remain := readFull_remNonneg d 2 h

theorem readInt32_remNonneg (d : Decoder) (h : 0 ≤ d.remain) :
    0 ≤ (readInt32 d).2.remain := readFull_remNonneg d 4 h

theorem readInt64_remNonneg (d : Decoder) (h : 0 ≤ d.remain) :
    0 ≤ (readInt64 d).2.remain := readFull_remNonneg d 8 h

theorem uvarLoop_remNonneg (fuel : Nat) :
    ∀ (d : Decoder) (x s : Nat), 0 ≤ d.remain →
    0 ≤ (uvarLoop d fuel x s).2.remain := by
  induction fuel with
  | zero => intro d x s h; exact h
  | succ f ih =>
    intro d x s h
    simp only [uvarLoop]
    have hb := readByte_remNonneg d h
    split
    · exact hb
    · exact ih _ _ _ hb

theorem readUnsignedVarInt_remNonneg (d : Decoder) (h : 0 ≤ d.remain) :
    0 ≤ (readUnsignedVarInt d).2.remain := by
  simp only [readUnsignedVarInt]
  have := uvarLoop_remNonneg
    (if (11 : Int) > d.remain then d.remain else 11).toNat d 0 0 h
  split
  · next x d1 heq =>
    rw [heq] at this
    exact this
  · next d1 heq =>
    rw [heq] at this
    exact setError_remNonneg _ _ this

theorem readVarInt_remNonneg (d : Decoder) (h : 0 ≤ d.remain) :
    0 ≤ (readVarInt d).2.remain := by
  simp only [readVarInt]
  have := uvarLoop_remNonneg
    (if (11 : Int) > d.remain then d.remain else 11).toNat d 0 0 h
  split
  · next x d1 heq =>
    rw [heq] at this
    exact this
  · next d1 heq =>
    rw [heq] at this
    exact setError_remNonneg _ _ this

theorem readString_remNonneg (d : Decoder) (h : 0 ≤ d.remain) :
    0 ≤ (readString d).2.remain := by
  unfold readString
  dsimp only
  have h16 := readInt16_remNonneg d h
  split
  · exact h16
  · exact dread_remNonneg _ _ h16

theorem readCompactString_remNonneg (d : Decoder) (h : 0 ≤ d.remain) :
    0 ≤ (readCompactString d).2.remain := by
  unfold readCompactString
  dsimp only
  have hv := readUnsignedVarInt_remNonneg d h
  split
  · exact hv
  · exact dread_remNonneg _ _ hv

theorem readBytes_remNonneg (d : Decoder) (h : 0 ≤ d.remain) :
    0 ≤ (readBytes d).2.remain := by
  unfold readBytes
  dsimp only
  have h32 := readInt32_remNonneg d h
  split
  · exact h32
  · exact dread_remNonneg _ _ h32

theorem readCompactBytes_remNonneg (d : Decoder) (h : 0 ≤ d.remain) :
    0 ≤ (readCompactBytes d).2.remain := by
  unfold readCompactBytes
  dsimp only
  have hv := readUnsignedVarInt_remNonneg d h
  split
  · exact hv
  · exact dread_remNonneg _ _ hv

end KafkaGo

namespace KafkaGo

theorem runElemsFn_remNonneg (f : Decoder → Val → Val × Decoder)
    (hf : ∀ d v, 0 ≤ d.remain → 0 ≤ (f d v).2.remain) (cnt : Nat) :
    ∀ i a d, 0 ≤ d.remain → 0 ≤ (runElemsFn f cnt i a d).2.remain := by
  induction cnt with
  | zero => intro i a d h; exact h
  | succ c ih =>
    intro i a d h
    simp only [runElemsFn]
    split
    · exact ih _ _ _ (hf _ _ h)
    · exact h

theorem runTaggedFn_remNonneg
    (tl : List (Int × Nat × (Decoder → Val → Val × Decoder)))
    (hf : ∀ q ∈ tl, ∀ d v, 0 ≤ d.remain → 0 ≤ (q.2.2 d v).2.remain) (n : Nat) :
    ∀ d v, 0 ≤ d.remain → 0 ≤ (runTaggedFn tl n d v).2.remain := by
  induction n with
  | zero => intro d v h; exact h
  | succ m ih =>
    intro d v h
    simp only [runTaggedFn]
    have h1 := readUnsignedVarInt_remNonneg d h
    have h2 := readUnsignedVarInt_remNonneg (readUnsignedVarInt d).2 h1
    split
    · next q hq =>
      exact ih _ _ (hf q (List.mem_of_find?_eq_some hq) _ _ h2)
    · exact ih _ _ (dread_remNonneg _ _ h2)

mutual
theorem runPlan_remNonneg (p : Plan) :
    ∀ d v, 0 ≤ d.remain → 0 ≤ (runPlan p d v).2.remain := by
  match p with
  | .pbool => intro d v h; simpa [runPlan] using readBool_remNonneg d h
  | .pint8 => intro d v h; simpa [runPlan] using readInt8_remNonneg d h
  | .pint16 => intro d v h; simpa [runPlan] using readInt16_remNonneg d h
  | .pint32 => intro d v h; simpa [runPlan] using readInt32_remNonneg d h
  | .pint64 => intro d v h; simpa [runPlan] using readInt64_remNonneg d h
  | .pstring => intro d v h; simpa [runPlan] using readString_remNonneg d h
  | .pcompactString =>
    intro d v h
    simpa [runPlan] using readCompactString_remNonneg d h
  | .pbytes => intro d v h; simpa [runPlan] using readBytes_remNonneg d h
  | .pcompactBytes =>
    intro d v h
    simpa [runPlan] using readCompactBytes_remNonneg d h
  | .pstruct ord flex tagged =>
    intro d v h
    have hord := runFields_remNonneg ord d v h
    simp only [runPlan]
    by_cases hflex : flex
    · simp only [hflex, if_true]
      exact runTaggedFn_remNonneg _ (taggedFns_remNonneg tagged) _ _ _
        (readUnsignedVarInt_remNonneg _ hord)
    · simp only [hflex, Bool.false_eq_true, if_false]
      exact hord
  | .parray edef ep =>
    intro d v h
    have h32 := readInt32_remNonneg d h
    simp only [runPlan]
    split
    · exact h32
    · exact runElemsFn_remNonneg _ (runPlan_remNonneg ep) _ _ _ _ h32
  | .pcompactArray edef ep =>
    intro d v h
    have hv := readUnsignedVarInt_remNonneg d h
    simp only [runPlan]
    split
    · exact hv
    · exact runElemsFn_remNonneg _ (runPlan_remNonneg ep) _ _ _ _ hv

theorem runFields_remNonneg (fp : FieldsPlan) :
    ∀ d v, 0 ≤ d.remain → 0 ≤ (runFields fp d v).2.remain := by
  match fp with
  | .nil => intro d v h; exact h
  | .cons i p rest =>
    intro d v h
    simp only [runFields]
    exact runFields_remNonneg rest _ _ (runPlan_remNonneg p _ _ h)

theorem taggedFns_remNonneg (tp : TaggedPlan) :
    ∀ q ∈ taggedFns tp, ∀ d v, 0 ≤ d.remain → 0 ≤ (q.2.2 d v).2.remain := by
  match tp with
  | .nil => intro q hq; exact absurd hq (List.not_mem_nil q)
  | .cons t i p rest =>
    intro q hq
    rcases List.mem_cons.mp hq with hq | hq
    · subst hq
      intro d v h
      exact runPlan_remNonneg p d v h
    · exact taggedFns_remNonneg rest q hq
end

/-- The operations a decode performs on its cursor (`Read`, `readFull`,
`read`, `discard`/`discardAll`, `writeTo`, `setError`, the primitive and
varint codecs, and whole compiled plans).  Used to state the cursor
invariants over arbitrary operation sequences. -/
inductive DOp where
  | opRead (k : Nat)
  | opReadFull (k : Nat)
  | opDread (k : Nat)
  | opDiscard (n : Nat)
  | opDiscardAll
  | opWriteTo (n : Nat)
  | opSetError (e : Option DErr)
  | opByte
  | opBool
  | opI8
  | opI16
  | opI32
  | opI64
  | opUVarInt
  | opVarInt
  | opString
  | opCompactString
  | opBytes
  | opCompactBytes
  | opPlan (p : Plan) (v : Val)

/-- Effect of one operation on the cursor (results discarded). -/
def applyOp : DOp → Decoder → Decoder
  | .opRead k, d => (dRead d k).2
  | .opReadFull k, d => (readFull d k).2
  | .opDread k, d => (dread d k).2
  | .opDiscard n, d => discard d (n : Int)
  | .opDiscardAll, d => discardAll d
  | .opWriteTo n, d => writeTo d n
  | .opSetError e, d => setError d e
  | .opByte, d => (readByte d).2
  | .opBool, d => (readBool d).2
  | .opI8, d => (readInt8 d).2
  | .opI16, d => (readInt16 d).2
  | .opI32, d => (readInt32 d).2
  | .opI64, d => (readInt64 d).2
  | .opUVarInt, d => (readUnsignedVarInt d).2
  | .opVarInt, d => (readVarInt d).2
  | .opString, d => (readString d).2
  | .opCompactString, d => (readCompactString d).2
  | .opBytes, d => (readBytes d).2
  | .opCompactBytes, d => (readCompactBytes d).2
  | .opPlan p v, d => (runPlan p d v).2

/-- A sequence of cursor operations, applied in order. -/
def applyOps (ops : List DOp) (d : Decoder) : Decoder :=
  ops.foldl (fun d op => applyOp op d) d

theorem applyOp_remNonneg (op : DOp) (d : Decoder) (h : 0 ≤ d.remain) :
    0 ≤ (applyOp op d).remain := by
  match op with
  | .opRead k => exact dRead_remNonneg d k h
  | .opReadFull k => exact readFull_remNonneg d k h
  | .opDread k => exact dread_remNonneg d k h
  | .opDiscard n => exact discard_remNonneg d _ h
  | .opDiscardAll => exact discardAll_remNonneg d h
  | .opWriteTo n => exact writeTo_remNonneg d n h
  | .opSetError e => exact setError_remNonneg d e h
  | .opByte => exact readByte_remNonneg d h
  | .opBool => exact readBool_remNonneg d h
  | .opI8 => exact readInt8_remNonneg d h
  | .opI16 => exact readInt16_remNonneg d h
  | .opI32 => exact readInt32_remNonneg d h
  | .opI64 => exact readInt64_remNonneg d h
  | .opUVarInt => exact readUnsignedVarInt_remNonneg d h
  | .opVarInt => exact readVarInt_remNonneg d h
  | .opString => exact readString_remNonneg d h
  | .opCompactString => exact readCompactString_remNonneg d h
  | .opBytes => exact readBytes_remNonneg d h
  | .opCompactBytes => exact readCompactBytes_remNonneg d h
  | .opPlan p v => exact runPlan_remNonneg p d v h

theorem applyOps_remNonneg (ops : List DOp) :
    ∀ d, 0 ≤ d.remain → 0 ≤ (applyOps ops d).remain := by
  induction ops with
  | nil => intro d h; exact h
  | cons op rest ih =>
    intro d h
    exact ih _ (applyOp_remNonneg op d h)

theorem ioCopyF_err_state (fuel : Nat) (d : Decoder) (e : DErr)
    (h : d.err = some e) : (ioCopyF fuel d).2 = d := by
  match fuel with
  | 0 => rfl
  | fuel + 1 => simp [ioCopyF, dRead_err d e h]

theorem discardRaw_err_pres (d : Decoder) (n : Int) (e : DErr)
    (h : d.err = some e) : ((discardRaw d n).1).err = some e := by
  unfold discardRaw
  by_cases hdc : d.hasDiscard
  · simp [hdc, h]
  · have hc := ioCopyF_err_state (d.source.length + 1) d e h
    simp [hdc, hc, h]

theorem discard_err (d : Decoder) (n : Int) (e : DErr) (h : d.err = some e) :
    (discard d n).err = some e := by
  unfold discard
  rw [setError_already _ e (discardRaw_err_pres d n e h)]
  exact discardRaw_err_pres d n e h

theorem writeTo_err (d : Decoder) (n : Nat) (e : DErr) (h : d.err = some e) :
    (writeTo d n).err = some e := by
  unfold writeTo
  dsimp only
  split
  · rw [ioCopyF_err_state _ { d with remain := (n : Int) } e h]
    rw [setError_already _ e (by exact h)]
    exact h
  · rw [ioCopyF_err_state _ d e h]
    rw [setError_already _ e (by exact h)]
    exact h

theorem applyOp_err (op : DOp) (d : Decoder) (e : DErr) (h : d.err = some e) :
    (applyOp op d).err = some e := by
  match op with
  | .opRead k => rw [show applyOp (.opRead k) d = d from by
      simp [applyOp, dRead_err d e h]]; exact h
  | .opReadFull k => rw [show applyOp (.opReadFull k) d = d from by
      simp [applyOp, readFull_err d e h]]; exact h
  | .opDread k => rw [show applyOp (.opDread k) d = d from by
      simp [applyOp, dread_err d e h]]; exact h
  | .opDiscard n => exact discard_err d _ e h
  | .opDiscardAll => exact discard_err d _ e h
  | .opWriteTo n => exact writeTo_err d n e h
  | .opSetError e2 => rw [show applyOp (.opSetError e2) d = d from by
      simp [applyOp, setError_already d e h]]; exact h
  | .opByte => rw [show (applyOp .opByte d) = d from by
      simp [applyOp, readByte_err d e h]]; exact h
  | .opBool => rw [show (applyOp .opBool d) = d from by
      simp [applyOp, readBool_err d e h]]; exact h
  | .opI8 => rw [show (applyOp .opI8 d) = d from by
      simp [applyOp, readInt8_err d e h]]; exact h
  | .opI16 => rw [show (applyOp .opI16 d) = d from by
      simp [applyOp, readInt16_err d e h]]; exact h
  | .opI32 => rw [show (applyOp .opI32 d) = d from by
      simp [applyOp, readInt32_err d e h]]; exact h
  | .opI64 => rw [show (applyOp .opI64 d) = d from by
      simp [applyOp, readInt64_err d e h]]; exact h
  | .opUVarInt => rw [show (applyOp .opUVarInt d) = d from by
      simp [applyOp, readUnsignedVarInt_err d e h]]; exact h
  | .opVarInt => rw [show (applyOp .opVarInt d) = d from by
      simp [applyOp, readVarInt_err d e h]]; exact h
  | .opString => rw [show (applyOp .opString d) = d from by
      simp [applyOp, readString_err d e h]]; exact h
  | .opCompactString => rw [show (applyOp .opCompactString d) = d from by
      simp [applyOp, readCompactString_err d e h]]; exact h
  | .opBytes => rw [show (applyOp .opBytes d) = d from by
      simp [applyOp, readBytes_err d e h]]; exact h
  | .opCompactBytes => rw [show (applyOp .opCompactBytes d) = d from by
      simp [applyOp, readCompactBytes_err d e h]]; exact h
  | .opPlan p v => rw [show (applyOp (.opPlan p v) d) = d from by
      simp [applyOp, runPlan_frozen p d v e h]]; exact h

theorem applyOps_err (ops : List DOp) :
    ∀ d e, d.err = some e → (applyOps ops d).err = some e := by
  induction ops with
  | nil => intro d e h; exact h
  | cons op rest ih =>
    intro d e h
    exact ih _ e (applyOp_err op d e h)

end KafkaGo

namespace KafkaGo

theorem Vals.length_set (a : Vals) : ∀ (i : Nat) (v : Val),
    (a.set i v).length = a.length := by
  match a with
  | .nil => intro i v; rfl
  | .cons w rest =>
    intro i v
    match i with
    | 0 => rfl
    | i + 1 => simp [Vals.set, Vals.length, Vals.length_set rest i v]

theorem Vals.getD_set_ne (a : Vals) : ∀ (i j : Nat) (v z : Val), i ≠ j →
    (a.set i v).getD j z = a.getD j z := by
  match a with
  | .nil => intro i j v z h; rfl
  | .cons w rest =>
    intro i j v z h
    match i, j with
    | 0, 0 => omega
    | 0, j + 1 => rfl
    | i + 1, 0 => rfl
    | i + 1, j + 1 =>
      simpa [Vals.set, Vals.getD] using Vals.getD_set_ne rest i j v z (by omega)

theorem Vals.length_replicate (n : Nat) (v : Val) :
    (Vals.replicate n v).length = n := by
  induction n with
  | zero => rfl
  | succ m ih => simp [Vals.replicate, Vals.length, ih]

theorem Vals.getD_replicate_lt (n : Nat) : ∀ (j : Nat) (v z : Val), j < n →
    (Vals.replicate n v).getD j z = v := by
  induction n with
  | zero => intro j v z h; omega
  | succ m ih =>
    intro j v z h
    match j with
    | 0 => rfl
    | j + 1 => simpa [Vals.replicate, Vals.getD] using ih j v z (by omega)

theorem getField_setField_ne (v : Val) (i j : Nat) (fv : Val) (h : j ≠ i) :
    getField (setField v j fv) i = getField v i := by
  match v with
  | .vstruct fs => simpa [getField, setField] using Vals.getD_set_ne fs j i fv _ h
  | .vbool b => rfl
  | .vint8 x => rfl
  | .vint16 x => rfl
  | .vint32 x => rfl
  | .vint64 x => rfl
  | .vstring s => rfl
  | .vbytes b => rfl
  | .varray a => rfl

theorem toInt64_small (u : Nat) (h : u < 2 ^ 63) : toInt64 u = (u : Int) := by
  rw [toInt64, if_pos h]

theorem toSigned_nonneg (w u : Nat) (h : u < 2 ^ (w - 1)) :
    toSigned w u = (u : Int) := by
  rw [toSigned, if_pos h]

theorem toSigned_neg (w u : Nat) (h1 : 2 ^ (w - 1) ≤ u) (h2 : u < 2 ^ w)
    (h3 : 0 < w) : toSigned w u < 0 := by
  rw [toSigned, if_neg (by omega)]
  have hp : (2 : Int) ^ ((w - 1) : Nat) * 2 = 2 ^ w := by
    rw [← pow_succ]
    congr 1
    omega
  have hc : ((u : Nat) : Int) < 2 ^ w := by exact_mod_cast h2
  have hd : ((2 ^ (w - 1) : Nat) : Int) = 2 ^ ((w - 1) : Nat) := by push_cast; rfl
  omega

theorem beNat_two (b0 b1 : Nat) : beNat [b0, b1] = b0 * 256 + b1 := by
  simp [beNat, List.foldl]

theorem beNat_four (b0 b1 b2 b3 : Nat) :
    beNat [b0, b1, b2, b3] = ((b0 * 256 + b1) * 256 + b2) * 256 + b3 := by
  simp [beNat, List.foldl]

theorem readString_bound_ok (b0 b1 : Nat) (rest : List Nat) (hd : Bool)
    (hb0 : b0 < 128) (hb1 : b1 < 256) (hlen : b0 * 256 + b1 ≤ rest.length) :
    readString (bound (b0 :: b1 :: rest) hd) =
      (rest.take (b0 * 256 + b1), bound (rest.drop (b0 * 256 + b1)) hd) := by
  unfold readString
  rw [readInt16_bound, if_pos (by simp : (2 : Nat) ≤ (b0 :: b1 :: rest).length)]
  have hval : toSigned 16 (beNat ((b0 :: b1 :: rest).take 2)) =
      ((b0 * 256 + b1 : Nat) : Int) := by
    rw [show (b0 :: b1 :: rest).take 2 = [b0, b1] from rfl, beNat_two]
    exact toSigned_nonneg 16 _ (by norm_num; omega)
  rw [hval, if_neg (not_lt.mpr (Int.natCast_nonneg _))]
  have htonat : ((b0 * 256 + b1 : Nat) : Int).toNat = b0 * 256 + b1 := by omega
  rw [show (b0 :: b1 :: rest).drop 2 = rest from rfl, htonat, dread_bound,
    if_pos hlen]

theorem readString_bound_short (b0 b1 : Nat) (rest : List Nat) (hd : Bool)
    (hb0 : b0 < 128) (hb1 : b1 < 256) (hlen : rest.length < b0 * 256 + b1) :
    readString (bound (b0 :: b1 :: rest) hd) =
      (rest, ⟨[], hd, 0,
        some (if rest.length = 0 then DErr.eof else .unexpectedEOF)⟩) := by
  unfold readString
  rw [readInt16_bound, if_pos (by simp : (2 : Nat) ≤ (b0 :: b1 :: rest).length)]
  have hval : toSigned 16 (beNat ((b0 :: b1 :: rest).take 2)) =
      ((b0 * 256 + b1 : Nat) : Int) := by
    rw [show (b0 :: b1 :: rest).take 2 = [b0, b1] from rfl, beNat_two]
    exact toSigned_nonneg 16 _ (by norm_num; omega)
  rw [hval, if_neg (not_lt.mpr (Int.natCast_nonneg _))]
  have htonat : ((b0 * 256 + b1 : Nat) : Int).toNat = b0 * 256 + b1 := by omega
  rw [show (b0 :: b1 :: rest).drop 2 = rest from rfl, htonat, dread_bound,
    if_neg (by omega : ¬(b0 * 256 + b1 ≤ rest.length))]

theorem readString_neg (b0 b1 : Nat) (rest : List Nat) (hd : Bool)
    (hb0l : 128 ≤ b0) (hb0u : b0 < 256) (hb1 : b1 < 256) :
    readString (bound (b0 :: b1 :: rest) hd) = ([], bound rest hd) := by
  unfold readString
  rw [readInt16_bound, if_pos (by simp : (2 : Nat) ≤ (b0 :: b1 :: rest).length)]
  have hval : toSigned 16 (beNat ((b0 :: b1 :: rest).take 2)) < 0 := by
    rw [show (b0 :: b1 :: rest).take 2 = [b0, b1] from rfl, beNat_two]
    exact toSigned_neg 16 _ (by norm_num; omega) (by norm_num; omega) (by norm_num)
  rw [if_pos hval]
  rfl

theorem beNat32_lt (b0 b1 b2 b3 : Nat) (hb0 : b0 < 128) (hb1 : b1 < 256)
    (hb2 : b2 < 256) (hb3 : b3 < 256) :
    ((b0 * 256 + b1) * 256 + b2) * 256 + b3 < 2 ^ (32 - 1) := by
  have : (2 : Nat) ^ (32 - 1) = 2147483648 := by norm_num
  omega

theorem readBytes_neg (b0 b1 b2 b3 : Nat) (rest : List Nat) (hd : Bool)
    (hb0l : 128 ≤ b0) (hb0u : b0 < 256) (hb1 : b1 < 256) (hb2 : b2 < 256)
    (hb3 : b3 < 256) :
    readBytes (bound (b0 :: b1 :: b2 :: b3 :: rest) hd) =
      (none, bound rest hd) := by
  unfold readBytes
  dsimp only
  rw [readInt32_bound,
    if_pos (by simp : (4 : Nat) ≤ (b0 :: b1 :: b2 :: b3 :: rest).length)]
  have hval : toSigned 32 (beNat ((b0 :: b1 :: b2 :: b3 :: rest).take 4)) < 0 := by
    rw [show (b0 :: b1 :: b2 :: b3 :: rest).take 4 = [b0, b1, b2, b3] from rfl,
      beNat_four]
    refine toSigned_neg 32 _ ?_ ?_ (by norm_num)
    · have : (2 : Nat) ^ (32 - 1) = 2147483648 := by norm_num
      omega
    · have : (2 : Nat) ^ 32 = 4294967296 := by norm_num
      omega
  rw [if_pos hval]
  rfl

theorem readBytes_bound_ok (b0 b1 b2 b3 : Nat) (rest : List Nat) (hd : Bool)
    (hb0 : b0 < 128) (hb1 : b1 < 256) (hb2 : b2 < 256) (hb3 : b3 < 256)
    (hlen : ((b0 * 256 + b1) * 256 + b2) * 256 + b3 ≤ rest.length) :
    readBytes (bound (b0 :: b1 :: b2 :: b3 :: rest) hd) =
      (some (rest.take (((b0 * 256 + b1) * 256 + b2) * 256 + b3)),
       bound (rest.drop (((b0 * 256 + b1) * 256 + b2) * 256 + b3)) hd) := by
  unfold readBytes
  dsimp only
  rw [readInt32_bound,
    if_pos (by simp : (4 : Nat) ≤ (b0 :: b1 :: b2 :: b3 :: rest).length)]
  have hval : toSigned 32 (beNat ((b0 :: b1 :: b2 :: b3 :: rest).take 4)) =
      ((((b0 * 256 + b1) * 256 + b2) * 256 + b3 : Nat) : Int) := by
    rw [show (b0 :: b1 :: b2 :: b3 :: rest).take 4 = [b0, b1, b2, b3] from rfl,
      beNat_four]
    exact toSigned_nonneg 32 _ (beNat32_lt b0 b1 b2 b3 hb0 hb1 hb2 hb3)
  rw [hval, if_neg (not_lt.mpr (Int.natCast_nonneg _))]
  have htonat : ((((b0 * 256 + b1) * 256 + b2) * 256 + b3 : Nat) : Int).toNat
      = ((b0 * 256 + b1) * 256 + b2) * 256 + b3 := by omega
  rw [show (b0 :: b1 :: b2 :: b3 :: rest).drop 4 = rest from rfl, htonat,
    dread_bound, if_pos hlen]

theorem readBytes_bound_short (b0 b1 b2 b3 : Nat) (rest : List Nat) (hd : Bool)
    (hb0 : b0 < 128) (hb1 : b1 < 256) (hb2 : b2 < 256) (hb3 : b3 < 256)
    (hlen : rest.length < ((b0 * 256 + b1) * 256 + b2) * 256 + b3) :
    readBytes (bound (b0 :: b1 :: b2 :: b3 :: rest) hd) =
      (some rest, ⟨[], hd, 0,
        some (if rest.length = 0 then DErr.eof else .unexpectedEOF)⟩) := by
  unfold readBytes
  dsimp only
  rw [readInt32_bound,
    if_pos (by simp : (4 : Nat) ≤ (b0 :: b1 :: b2 :: b3 :: rest).length)]
  have hval : toSigned 32 (beNat ((b0 :: b1 :: b2 :: b3 :: rest).take 4)) =
      ((((b0 * 256 + b1) * 256 + b2) * 256 + b3 : Nat) : Int) := by
    rw [show (b0 :: b1 :: b2 :: b3 :: rest).take 4 = [b0, b1, b2, b3] from rfl,
      beNat_four]
    exact toSigned_nonneg 32 _ (beNat32_lt b0 b1 b2 b3 hb0 hb1 hb2 hb3)
  rw [hval, if_neg (not_lt.mpr (Int.natCast_nonneg _))]
  have htonat : ((((b0 * 256 + b1) * 256 + b2) * 256 + b3 : Nat) : Int).toNat
      = ((b0 * 256 + b1) * 256 + b2) * 256 + b3 := by omega
  rw [show (b0 :: b1 :: b2 :: b3 :: rest).drop 4 = rest from rfl, htonat,
    dread_bound, if_neg (by omega)]

end KafkaGo

namespace KafkaGo

theorem runPlan_pint32_bound (src : List Nat) (hd : Bool) (v : Val) :
    runPlan .pint32 (bound src hd) v =
      (if 4 ≤ src.length then
        (.vint32 (toSigned 32 (beNat (src.take 4))), bound (src.drop 4) hd)
      else (.vint32 0,
        ⟨[], hd, 0, some (if src.length = 0 then DErr.eof else .unexpectedEOF)⟩)) := by
  rw [runPlan_pint32, readInt32_bound]
  by_cases h : 4 ≤ src.length <;> simp [h]

theorem runElemsFn_zero_rem (f : Decoder → Val → Val × Decoder) (cnt i : Nat)
    (a : Vals) (d : Decoder) (h : d.remain ≤ 0) :
    runElemsFn f cnt i a d = (a, d) := by
  match cnt with
  | 0 => rfl
  | c + 1 =>
    have hno : ¬(0 < d.remain) := by omega
    simp [runElemsFn, hno]

theorem runElems_i32_full (cnt : Nat) :
    ∀ (i : Nat) (a : Vals) (src : List Nat) (hd : Bool),
    4 * cnt ≤ src.length →
    ∃ l, runElemsFn (runPlan .pint32) cnt i a (bound src hd)
        = (l, bound (src.drop (4 * cnt)) hd)
      ∧ l.length = a.length
      ∧ ∀ j z, (j < i ∨ i + cnt ≤ j) → l.getD j z = a.getD j z := by
  induction cnt with
  | zero =>
    intro i a src hd _
    exact ⟨a, by simp [runElemsFn], rfl, fun j z _ => rfl⟩
  | succ c ih =>
    intro i a src hd hlen
    have hrem : (0 : Int) < (bound src hd).remain := by
      simp [bound]
      omega
    have h4 : 4 ≤ src.length := by omega
    simp only [runElemsFn, if_pos hrem, runPlan_pint32_bound, if_pos h4]
    obtain ⟨l, hl, hlen2, huntouched⟩ :=
      ih (i + 1) (a.set i (.vint32 (toSigned 32 (beNat (src.take 4)))))
        (src.drop 4) hd (by simp [List.length_drop]; omega)
    refine ⟨l, ?_, ?_, ?_⟩
    · rw [hl]
      have harg : (src.drop 4).drop (4 * c) = src.drop (4 * (c + 1)) := by
        rw [List.drop_drop]
        congr 1
        omega
      rw [harg]
    · rw [hlen2, Vals.length_set]
    · intro j z hj
      rw [huntouched j z (by omega), Vals.getD_set_ne _ _ _ _ _ (by omega)]

theorem runElems_i32_boundary (cnt : Nat) :
    ∀ (m i : Nat) (a : Vals) (src : List Nat) (hd : Bool),
    src.length = 4 * m → m < cnt →
    ∃ l, runElemsFn (runPlan .pint32) cnt i a (bound src hd)
        = (l, bound [] hd)
      ∧ l.length = a.length
      ∧ ∀ j z, (j < i ∨ i + m ≤ j) → l.getD j z = a.getD j z := by
  induction cnt with
  | zero => intro m i a src hd _ h; omega
  | succ c ih =>
    intro m i a src hd hlen hm
    match m with
    | 0 =>
      have hnil : src = [] := List.length_eq_zero.mp (by omega)
      subst hnil
      refine ⟨a, ?_, rfl, fun j z _ => rfl⟩
      exact runElemsFn_zero_rem _ _ _ _ _ (by simp [bound])
    | m + 1 =>
      have hrem : (0 : Int) < (bound src hd).remain := by
        simp [bound]
        omega
      have h4 : 4 ≤ src.length := by omega
      simp only [runElemsFn, if_pos hrem, runPlan_pint32_bound, if_pos h4]
      obtain ⟨l, hl, hlen2, huntouched⟩ :=
        ih m (i + 1) (a.set i (.vint32 (toSigned 32 (beNat (src.take 4)))))
          (src.drop 4) hd (by simp [List.length_drop]; omega) (by omega)
      refine ⟨l, hl, ?_, ?_⟩
      · rw [hlen2, Vals.length_set]
      · intro j z hj
        rw [huntouched j z (by omega), Vals.getD_set_ne _ _ _ _ _ (by omega)]

theorem runElems_i32_mid (cnt : Nat) :
    ∀ (i : Nat) (a : Vals) (src : List Nat) (hd : Bool),
    src.length < 4 * cnt → src.length % 4 ≠ 0 →
    ∃ l, runElemsFn (runPlan .pint32) cnt i a (bound src hd)
        = (l, ⟨[], hd, 0, some .unexpectedEOF⟩)
      ∧ l.length = a.length := by
  induction cnt with
  | zero => intro i a src hd h _; omega
  | succ c ih =>
    intro i a src hd hlen hmod
    have hpos : 0 < src.length := by omega
    have hrem : (0 : Int) < (bound src hd).remain := by
      simp [bound]
      omega
    by_cases h4 : 4 ≤ src.length
    · simp only [runElemsFn, if_pos hrem, runPlan_pint32_bound, if_pos h4]
      obtain ⟨l, hl, hlen2⟩ :=
        ih (i + 1) (a.set i (.vint32 (toSigned 32 (beNat (src.take 4)))))
          (src.drop 4) hd (by simp [List.length_drop]; omega)
          (by simp [List.length_drop]; omega)
      refine ⟨l, hl, ?_⟩
      rw [hlen2, Vals.length_set]
    · simp only [runElemsFn, if_pos hrem, runPlan_pint32_bound, if_neg h4]
      rw [if_neg (by omega : ¬src.length = 0)]
      refine ⟨a.set i (.vint32 0), ?_, Vals.length_set a i _⟩
      rw [runElemsFn_zero_rem _ _ _ _ _ (by simp)]

end KafkaGo

namespace KafkaGo

theorem readCompactString_zero (rest : List Nat) (hd : Bool) :
    readCompactString (bound (0 :: rest) hd) = ([], bound rest hd) := by
  unfold readCompactString
  dsimp only
  rw [readUnsignedVarInt_single 0 rest hd (by norm_num)]
  simp

theorem readCompactBytes_zero (rest : List Nat) (hd : Bool) :
    readCompactBytes (bound (0 :: rest) hd) = (none, bound rest hd) := by
  unfold readCompactBytes
  dsimp only
  rw [readUnsignedVarInt_single 0 rest hd (by norm_num)]
  simp

theorem runPlan_parray_neg (edef : Val) (ep : Plan) (b0 b1 b2 b3 : Nat)
    (rest : List Nat) (hd : Bool) (v : Val) (hb0l : 128 ≤ b0) (hb0u : b0 < 256)
    (hb1 : b1 < 256) (hb2 : b2 < 256) (hb3 : b3 < 256) :
    runPlan (.parray edef ep) (bound (b0 :: b1 :: b2 :: b3 :: rest) hd) v =
      (.varray .nil, bound rest hd) := by
  have hval : toSigned 32 (beNat ((b0 :: b1 :: b2 :: b3 :: rest).take 4)) < 0 := by
    rw [show (b0 :: b1 :: b2 :: b3 :: rest).take 4 = [b0, b1, b2, b3] from rfl,
      beNat_four]
    refine toSigned_neg 32 _ ?_ ?_ (by norm_num)
    · have : (2 : Nat) ^ (32 - 1) = 2147483648 := by norm_num
      omega
    · have : (2 : Nat) ^ 32 = 4294967296 := by norm_num
      omega
  simp only [runPlan, readInt32_bound,
    if_pos (by simp : (4 : Nat) ≤ (b0 :: b1 :: b2 :: b3 :: rest).length)]
  rw [if_pos hval]
  rfl

theorem runPlan_pcompactArray_zero (edef : Val) (ep : Plan) (rest : List Nat)
    (hd : Bool) (v : Val) :
    runPlan (.pcompactArray edef ep) (bound (0 :: rest) hd) v =
      (.varray .nil, bound rest hd) := by
  simp only [runPlan, readUnsignedVarInt_single 0 rest hd (by norm_num)]
  simp

/-- Go `forEachStructField` position in a field list. -/
def SFields.get? : SFields → Nat → Option (List StructTag × Shape)
  | .nil, _ => none
  | .cons tags sh _, 0 => some (tags, sh)
  | .cons _ _ rest, n + 1 => rest.get? n

/-- Whether a positional plan decodes into field index `i`. -/
def FieldsPlan.hasIndex : FieldsPlan → Nat → Bool
  | .nil, _ => false
  | .cons j _ rest, i => (j == i) || rest.hasIndex i

/-- Whether a registered extension plan decodes into field index `i`. -/
def TaggedPlan.hasIndex : TaggedPlan → Nat → Bool
  | .nil, _ => false
  | .cons _ j _ rest, i => (j == i) || rest.hasIndex i

theorem compileFields_index_ge (fs : SFields) : ∀ (v : Int) (flex : Bool)
    (k i : Nat),
    ((compileFields fs v flex k).1.hasIndex i = true → k ≤ i) ∧
    ((compileFields fs v flex k).2.hasIndex i = true → k ≤ i) := by
  match fs with
  | .nil => intro v flex k i; simp [compileFields, FieldsPlan.hasIndex, TaggedPlan.hasIndex]
  | .cons tags sh rest =>
    intro v flex k i
    have hrest := compileFields_index_ge rest v flex (k + 1) i
    simp only [compileFields]
    cases hfind : tags.find? (fun t => decide (t.minVersion ≤ v) && decide (v ≤ t.maxVersion)) with
    | none =>
      simp only [hfind]
      exact ⟨fun h => by have := hrest.1 h; omega,
             fun h => by have := hrest.2 h; omega⟩
    | some t =>
      simp only [hfind]
      by_cases ht : t.tagID < -1
      · simp only [if_pos ht, FieldsPlan.hasIndex]
        constructor
        · intro h
          rcases Bool.or_eq_true_iff.mp h with h | h
          · have : k = i := by simpa using h
            omega
          · have := hrest.1 h
            omega
        · intro h
          have := hrest.2 h
          omega
      · simp only [if_neg ht, TaggedPlan.hasIndex]
        constructor
        · intro h
          have := hrest.1 h
          omega
        · intro h
          rcases Bool.or_eq_true_iff.mp h with h | h
          · have : k = i := by simpa using h
            omega
          · have := hrest.2 h
            omega

theorem compileFields_skip (fs : SFields) : ∀ (v : Int) (flex : Bool)
    (k j : Nat) (tags : List StructTag) (sh : Shape),
    fs.get? j = some (tags, sh) →
    tags.find? (fun t => decide (t.minVersion ≤ v) && decide (v ≤ t.maxVersion))
      = none →
    (compileFields fs v flex k).1.hasIndex (k + j) = false ∧
    (compileFields fs v flex k).2.hasIndex (k + j) = false := by
  match fs with
  | .nil => intro v flex k j tags sh hget; exact absurd hget (by simp [SFields.get?])
  | .cons tags0 sh0 rest =>
    intro v flex k j tags sh hget hnone
    match j with
    | 0 =>
      have htags : tags0 = tags ∧ sh0 = sh := by
        simpa [SFields.get?] using hget
      obtain ⟨rfl, rfl⟩ := htags
      have hge := compileFields_index_ge rest v flex (k + 1) (k + 0)
      simp only [compileFields, hnone]
      constructor
      · cases hh : (compileFields rest v flex (k + 1)).1.hasIndex (k + 0)
        · rfl
        · have := hge.1 hh
          omega
      · cases hh : (compileFields rest v flex (k + 1)).2.hasIndex (k + 0)
        · rfl
        · have := hge.2 hh
          omega
    | j + 1 =>
      have hget' : rest.get? j = some (tags, sh) := hget
      have hrest := compileFields_skip rest v flex (k + 1) j tags sh hget' hnone
      have harith : k + 1 + j = k + (j + 1) := by omega
      rw [harith] at hrest
      simp only [compileFields]
      cases hfind : tags0.find? (fun t => decide (t.minVersion ≤ v) && decide (v ≤ t.maxVersion)) with
      | none =>
        simp only [hfind]
        exact hrest
      | some t =>
        simp only [hfind]
        by_cases ht : t.tagID < -1
        · simp only [if_pos ht, FieldsPlan.hasIndex]
          refine ⟨?_, hrest.2⟩
          have hne : (k == k + (j + 1)) = false := by
            simp
          rw [hne, Bool.false_or]
          exact hrest.1
        · simp only [if_neg ht, TaggedPlan.hasIndex]
          refine ⟨hrest.1, ?_⟩
          have hne : (k == k + (j + 1)) = false := by
            simp
          rw [hne, Bool.false_or]
          exact hrest.2

theorem runFields_untouched (fp : FieldsPlan) : ∀ (d : Decoder) (v : Val)
    (i : Nat), fp.hasIndex i = false →
    getField (runFields fp d v).1 i = getField v i := by
  match fp with
  | .nil => intro d v i _; rfl
  | .cons j p rest =>
    intro d v i h
    simp only [FieldsPlan.hasIndex, Bool.or_eq_false_iff] at h
    have hji : j ≠ i := by simpa using h.1
    simp only [runFields]
    rw [runFields_untouched rest _ _ i h.2, getField_setField_ne _ _ _ _ hji]

theorem taggedFns_index (tp : TaggedPlan) :
    ∀ q ∈ taggedFns tp, tp.hasIndex q.2.1 = true := by
  match tp with
  | .nil => intro q hq; exact absurd hq (List.not_mem_nil q)
  | .cons t j p rest =>
    intro q hq
    simp only [TaggedPlan.hasIndex, Bool.or_eq_true_iff]
    rcases List.mem_cons.mp hq with hq | hq
    · subst hq
      left
      simp
    · right
      exact taggedFns_index rest q hq

theorem runTaggedFn_untouched
    (tl : List (Int × Nat × (Decoder → Val → Val × Decoder))) (n : Nat) :
    ∀ (d : Decoder) (v : Val) (i : Nat), (∀ q ∈ tl, q.2.1 ≠ i) →
    getField (runTaggedFn tl n d v).1 i = getField v i := by
  induction n with
  | zero => intro d v i _; rfl
  | succ m ih =>
    intro d v i h
    simp only [runTaggedFn]
    split
    · next q hq =>
      rw [ih _ _ i h, getField_setField_ne _ _ _ _
        (h q (List.mem_of_find?_eq_some hq))]
    · exact ih _ _ i h

theorem runPlan_pstruct_untouched (ord : FieldsPlan) (flex : Bool)
    (tagged : TaggedPlan) (d : Decoder) (v : Val) (i : Nat)
    (h1 : ord.hasIndex i = false) (h2 : tagged.hasIndex i = false) :
    getField (runPlan (.pstruct ord flex tagged) d v).1 i = getField v i := by
  simp only [runPlan]
  by_cases hflex : flex
  · simp only [hflex, if_true]
    rw [runTaggedFn_untouched _ _ _ _ i ?_]
    · exact runFields_untouched ord d v i h1
    · intro q hq
      intro hcontra
      have := taggedFns_index tagged q hq
      rw [hcontra, h2] at this
      exact Bool.noConfusion this
  · simp only [hflex, Bool.false_eq_true, if_false]
    exact runFields_untouched ord d v i h1

theorem runPlan_pstruct_classic (ord : FieldsPlan) (tg : TaggedPlan)
    (d : Decoder) (v : Val) :
    runPlan (.pstruct ord false tg) d v = runFields ord d v := by
  simp [runPlan]

mutual
theorem compile_classicOnly (s : Shape) :
    ∀ v : Int, (compile s v false).classicOnly = true := by
  match s with
  | .sbool => intro v; rfl
  | .sint8 => intro v; rfl
  | .sint16 => intro v; rfl
  | .sint32 => intro v; rfl
  | .sint64 => intro v; rfl
  | .sstring => intro v; rfl
  | .sbytes => intro v; rfl
  | .sstruct fields =>
    intro v
    have hf := compileFields_classicOnly fields v 0
    simp only [compile, Plan.classicOnly]
    rw [hf.1, hf.2]
    rfl
  | .sarray e =>
    intro v
    simp only [compile, Bool.false_eq_true, if_false, Plan.classicOnly]
    exact compile_classicOnly e v

theorem compileFields_classicOnly (fs : SFields) :
    ∀ (v : Int) (k : Nat),
    ((compileFields fs v false k).1.classicOnly = true) ∧
    ((compileFields fs v false k).2.classicOnly = true) := by
  match fs with
  | .nil => intro v k; exact ⟨rfl, rfl⟩
  | .cons tags sh rest =>
    intro v k
    have hrest := compileFields_classicOnly rest v (k + 1)
    simp only [compileFields]
    cases hfind : tags.find? (fun t => decide (t.minVersion ≤ v) && decide (v ≤ t.maxVersion)) with
    | none =>
      simp only [hfind]
      exact hrest
    | some t =>
      simp only [hfind]
      by_cases ht : t.tagID < -1
      · simp only [if_pos ht, FieldsPlan.classicOnly]
        rw [compile_classicOnly sh v, hrest.1]
        exact ⟨rfl, hrest.2⟩
      · simp only [if_neg ht, TaggedPlan.classicOnly]
        rw [compile_classicOnly sh v, hrest.2]
        exact ⟨hrest.1, rfl⟩
end

theorem Unmarshal_eq (data : List Nat) (version : Int) (shape : Shape)
    (dest : Val) :
    Unmarshal data version shape dest =
      (dontExpectEOF
        ((runPlan (compile shape version false) (bound data false) dest).2).err,
       (runPlan (compile shape version false) (bound data false) dest).1) := by
  unfold Unmarshal UnmarshalWith
  simp [bound]

/-- Every cached plan was compiled from its own key with the flexible flag
off. -/
def cacheOK (cache : List (VersionedType × Plan)) : Prop :=
  ∀ p ∈ cache, p.2 = compile p.1.shape p.1.version false

theorem UnmarshalWith_classic (cache : List (VersionedType × Plan))
    (data : List Nat) (version : Int) (shape : Shape) (dest : Val)
    (h : cacheOK cache) :
    cacheOK (UnmarshalWith cache data version shape dest).2 ∧
    (UnmarshalWith cache data version shape dest).1
      = Unmarshal data version shape dest := by
  rw [Unmarshal_eq]
  unfold UnmarshalWith
  dsimp only
  cases hfind : cache.find? (fun e => decide (e.1 = ⟨shape, version⟩)) with
  | some e =>
    have hmem : e ∈ cache := List.mem_of_find?_eq_some hfind
    have hkey : e.1 = ⟨shape, version⟩ := by
      have := List.find?_some hfind
      simpa using this
    have hplan : e.2 = compile shape version false := by
      rw [h e hmem, hkey]
    simp only [hfind, hplan]
    exact ⟨h, rfl⟩
  | none =>
    simp only [hfind]
    constructor
    · intro p hp
      rcases List.mem_cons.mp hp with hp | hp
      · subst hp
        rfl
      · exact h p hp
    · rfl

end KafkaGo

namespace KafkaGo

theorem dontExpectEOF_some (e : DErr) : dontExpectEOF (some e) ≠ none := by
  cases e <;> simp [dontExpectEOF]

/-- C3: once the sticky error slot of a cursor is set, it is never cleared by
any subsequent operation of the same decode (every operation sequence leaves
it latched on the same error), and every subsequent read — `Read`,
`readFull`, `readByte`, `readBool`, `readInt8/16/32/64` — is a no-op that
consumes nothing from the source, leaves the cursor untouched and returns the
zero/default value; entire compiled plans likewise leave the cursor
untouched. -/
theorem c3_sticky_error_noop :
    ∀ (d : Decoder) (e : DErr), d.err = some e →
      (∀ k, dRead d k = (([], some e), d)) ∧
      (∀ k, 0 < k → readFull d k = (([], false), d)) ∧
      readByte d = (0, d) ∧
      readBool d = (false, d) ∧
      readInt8 d = (0, d) ∧
      readInt16 d = (0, d) ∧
      readInt32 d = (0, d) ∧
      readInt64 d = (0, d) ∧
      (∀ ops, (applyOps ops d).err = some e) ∧
      (∀ p v, (runPlan p d v).2 = d) := by
  intro d e h
  refine ⟨fun k => dRead_err d e h k, fun k hk => ?_, readByte_err d e h,
    readBool_err d e h, readInt8_err d e h, readInt16_err d e h,
    readInt32_err d e h, readInt64_err d e h,
    fun ops => applyOps_err ops d e h, fun p v => runPlan_frozen p d v e h⟩
  rw [readFull_err d e h k]
  simp [show ¬(k = 0) by omega]

theorem c3_witness :
    dRead ⟨[1, 2], false, 2, some .eof⟩ 1
        = (([], some .eof), ⟨[1, 2], false, 2, some .eof⟩) ∧
      readFull ⟨[1, 2], false, 2, some .eof⟩ 4
        = (([], false), ⟨[1, 2], false, 2, some .eof⟩) ∧
      readInt32 ⟨[1, 2], false, 2, some .eof⟩ = (0, ⟨[1, 2], false, 2, some .eof⟩) ∧
      (applyOps [.opI32, .opString, .opPlan .pint64 (.vint64 0)]
        ⟨[1, 2], false, 2, some .eof⟩).err = some .eof ∧
      (runPlan .pint32 ⟨[1, 2], false, 2, some .eof⟩ (.vint32 0)).2
        = ⟨[1, 2], false, 2, some .eof⟩ := by
  obtain ⟨h1, h2, _, _, _, _, h7, _, h9, h10⟩ :=
    c3_sticky_error_noop ⟨[1, 2], false, 2, some .eof⟩ .eof rfl
  exact ⟨h1 1, h2 4 (by norm_num), h7, h9 _, h10 .pint32 (.vint32 0)⟩

/-- C4 (counterexample): with a source that does not expose a `Discard`
capability — exactly the `bytes.Reader` binding `Unmarshal` uses — the first
read failure latches the sticky error but discards nothing: the underlying
source still holds all five remaining bytes and `remain` is still 5, so the
source is left mid-field, contradicting the claim that the remaining frame
bytes are discarded for any source. -/
theorem c4_counterexample :
    setError ⟨[1, 2, 3, 4, 5], false, 5, none⟩ (some .unexpectedEOF)
        = ⟨[1, 2, 3, 4, 5], false, 5, some .unexpectedEOF⟩ ∧
      (setError ⟨[1, 2, 3, 4, 5], false, 5, none⟩ (some .unexpectedEOF)).source
        ≠ [] := by
  exact ⟨rfl, by decide⟩

/-- C4 (amended): when the first read failure latches the sticky error,
`discardAll` runs; if the source exposes a `Discard` capability the remaining
`min(remain, available)` bytes are skipped on the underlying source — in
particular, for a cursor whose budget equals the bytes the source still holds
(the per-frame binding) the source is left exactly at the end of the current
frame with `remain = 0`.  Without a `Discard` capability the fallback drains
through the cursor's own `Read`, which the just-latched sticky error turns
into a no-op, so nothing is discarded and the source stays mid-field. -/
theorem setError_latch_discarder (src : List Nat) (rem : Int) (e : DErr) :
    setError ⟨src, true, rem, none⟩ (some e)
      = ⟨src.drop (min rem.toNat src.length), true,
         rem - (min rem.toNat src.length : Nat), some e⟩ := by
  simp [setError, discardRaw]

theorem c4_discard_on_error :
    (∀ (src : List Nat) (rem : Int) (e : DErr),
      setError ⟨src, true, rem, none⟩ (some e)
        = ⟨src.drop (min rem.toNat src.length), true,
           rem - (min rem.toNat src.length : Nat), some e⟩) ∧
    (∀ (src : List Nat) (e : DErr),
      setError (bound src true) (some e) = ⟨[], true, 0, some e⟩) ∧
    (∀ (src : List Nat) (rem : Int) (e : DErr),
      setError ⟨src, false, rem, none⟩ (some e) = ⟨src, false, rem, some e⟩) := by
  refine ⟨setError_latch_discarder, fun src e => ?_, fun src rem e => rfl⟩
  rw [show bound src true = ⟨src, true, (src.length : Int), none⟩ from rfl,
    setError_latch_discarder]
  have h1 : ((src.length : Int)).toNat = src.length := by omega
  rw [h1, min_self, List.drop_length]
  simp

/-- C5 (counterexample): an input stream holding only five bytes, all with
the continuation bit set, makes both varint readers latch the malformed
"cannot decode varint" error even though far fewer than 11 groups were read —
the code caps the group budget at `min(11, remain)`, so running out of frame
bytes mid-varint is reported as the malformed-varint error, not as a
premature end-of-input. -/
theorem c5_counterexample :
    readUnsignedVarInt ⟨[128, 128, 128, 128, 128], false, 5, none⟩
        = (0, ⟨[], false, 0, some .cannotDecodeUVarint⟩) ∧
      readVarInt ⟨[128, 128, 128, 128, 128], false, 5, none⟩
        = (0, ⟨[], false, 0, some .cannotDecodeVarint⟩) := by
  exact ⟨rfl, rfl⟩

/-- C5 (amended): on the per-frame binding, `readVarInt` and
`readUnsignedVarInt` signal their malformed-varint decode error exactly when
the first `min(11, remaining budget)` input bytes all have the continuation
bit set — i.e. when the permitted group budget, which is the smaller of 11
and the remaining frame bytes, is exhausted without a terminating byte
(vacuously so on an empty budget).  An input whose frame ends before 11
groups therefore also yields the malformed-varint error, not a separate
premature-end-of-input error. -/
theorem c5_varint_error_iff :
    ∀ (src : List Nat) (hd : Bool), (∀ b ∈ src, b < 256) →
      ((readUnsignedVarInt (bound src hd)).2.err = some .cannotDecodeUVarint ↔
        ∀ b ∈ src.take (min 11 src.length), 128 ≤ b) ∧
      ((readVarInt (bound src hd)).2.err = some .cannotDecodeVarint ↔
        ∀ b ∈ src.take (min 11 src.length), 128 ≤ b) := by
  intro src hd hb
  exact ⟨readUnsignedVarInt_cont_iff src hd hb, readVarInt_cont_iff src hd hb⟩

theorem c5_witness :
    ((readUnsignedVarInt (bound [128, 1, 7] false)).2.err
        = some .cannotDecodeUVarint ↔
      ∀ b ∈ ([128, 1, 7] : List Nat).take (min 11 ([128, 1, 7] : List Nat).length),
        128 ≤ b) ∧
    ((readVarInt (bound [128, 1, 7] false)).2.err = some .cannotDecodeVarint ↔
      ∀ b ∈ ([128, 1, 7] : List Nat).take (min 11 ([128, 1, 7] : List Nat).length),
        128 ≤ b) := by
  exact c5_varint_error_iff [128, 1, 7] false (by decide)

/-- C8: sentinel length prefixes decode to null/empty without consuming any
payload bytes.  A classic string whose 2-byte signed length is negative
(sign bit set) decodes to the empty string leaving the rest of the source
untouched; classic bytes with a negative 4-byte length decode to nil; a
classic array with a negative count decodes to the empty array with no
element decoded; and compact strings, bytes and arrays whose unsigned-varint
prefix is 0 decode to null/empty after consuming only the single prefix
byte. -/
theorem c8_sentinels :
    (∀ (b0 b1 : Nat) (rest : List Nat) (hd : Bool), 128 ≤ b0 → b0 < 256 →
      b1 < 256 → readString (bound (b0 :: b1 :: rest) hd) = ([], bound rest hd)) ∧
    (∀ (b0 b1 b2 b3 : Nat) (rest : List Nat) (hd : Bool), 128 ≤ b0 →
      b0 < 256 → b1 < 256 → b2 < 256 → b3 < 256 →
      readBytes (bound (b0 :: b1 :: b2 :: b3 :: rest) hd) = (none, bound rest hd)) ∧
    (∀ (edef : Val) (ep : Plan) (b0 b1 b2 b3 : Nat) (rest : List Nat)
      (hd : Bool) (v : Val), 128 ≤ b0 → b0 < 256 → b1 < 256 → b2 < 256 →
      b3 < 256 →
      runPlan (.parray edef ep) (bound (b0 :: b1 :: b2 :: b3 :: rest) hd) v
        = (.varray .nil, bound rest hd)) ∧
    (∀ (rest : List Nat) (hd : Bool),
      readCompactString (bound (0 :: rest) hd) = ([], bound rest hd)) ∧
    (∀ (rest : List Nat) (hd : Bool),
      readCompactBytes (bound (0 :: rest) hd) = (none, bound rest hd)) ∧
    (∀ (edef : Val) (ep : Plan) (rest : List Nat) (hd : Bool) (v : Val),
      runPlan (.pcompactArray edef ep) (bound (0 :: rest) hd) v
        = (.varray .nil, bound rest hd)) := by
  refine ⟨fun b0 b1 rest hd h1 h2 h3 => readString_neg b0 b1 rest hd h1 h2 h3,
    fun b0 b1 b2 b3 rest hd h1 h2 h3 h4 h5 =>
      readBytes_neg b0 b1 b2 b3 rest hd h1 h2 h3 h4 h5,
    fun edef ep b0 b1 b2 b3 rest hd v h1 h2 h3 h4 h5 =>
      runPlan_parray_neg edef ep b0 b1 b2 b3 rest hd v h1 h2 h3 h4 h5,
    fun rest hd => readCompactString_zero rest hd,
    fun rest hd => readCompactBytes_zero rest hd,
    fun edef ep rest hd v => runPlan_pcompactArray_zero edef ep rest hd v⟩

theorem c8_witness :
    readString (bound [255, 255, 42] false) = ([], bound [42] false) ∧
      readBytes (bound [255, 255, 255, 255, 42] false)
        = (none, bound [42] false) ∧
      runPlan (.parray (.vint32 0) .pint32) (bound [255, 255, 255, 255, 42] false)
        (.varray .nil) = (.varray .nil, bound [42] false) ∧
      readCompactString (bound [0, 42] false) = ([], bound [42] false) := by
  obtain ⟨h1, h2, h3, h4, _, _⟩ := c8_sentinels
  exact ⟨h1 255 255 [42] false (by norm_num) (by norm_num) (by norm_num),
    h2 255 255 255 255 [42] false (by norm_num) (by norm_num) (by norm_num)
      (by norm_num) (by norm_num),
    h3 (.vint32 0) .pint32 255 255 255 255 [42] false (.varray .nil)
      (by norm_num) (by norm_num) (by norm_num) (by norm_num) (by norm_num),
    h4 [0, 42].tail false⟩

/-- C9: the remaining-byte budget of a cursor is never driven negative: any
sequence of decoder operations (Read, readFull, read, discard, discardAll,
writeTo, setError, the fixed-width and varint readers, the string/bytes
codecs and whole compiled plans) applied to a cursor with a non-negative
budget — in particular one freshly bound with `remain` equal to the frame
length — leaves the budget non-negative. -/
theorem c9_remain_never_negative :
    (∀ (ops : List DOp) (d : Decoder), 0 ≤ d.remain →
      0 ≤ (applyOps ops d).remain) ∧
    (∀ (ops : List DOp) (data : List Nat) (hd : Bool),
      0 ≤ (applyOps ops (bound data hd)).remain) := by
  refine ⟨fun ops d h => applyOps_remNonneg ops d h,
    fun ops data hd => applyOps_remNonneg ops (bound data hd) ?_⟩
  simp [bound]

theorem c9_witness :
    0 ≤ (applyOps [.opI32, .opString, .opDiscard 7, .opWriteTo 3,
      .opPlan (.parray (.vint32 0) .pint32) (.varray .nil)]
      (bound [0, 0, 0, 9, 1, 2] false)).remain := by
  exact c9_remain_never_negative.2 _ [0, 0, 0, 9, 1, 2] false

/-- C10: every decode through `Unmarshal` resolves its plan under a cache
keyed only by (shape, version) — the key type has no flexible flag — and any
cache reachable from `Unmarshal` use holds only plans compiled with the
flexible flag off, so the decode executed is always
`compile shape version false`; such a plan uses the classic length-prefixed
string/bytes/array codecs at every nesting depth (`classicOnly`), and a
struct plan with the flexible flag off never reads a trailing tagged-field
section. -/
theorem c10_unmarshal_always_classic :
    ∀ (cache : List (VersionedType × Plan)) (data : List Nat) (version : Int)
      (shape : Shape) (dest : Val), cacheOK cache →
      cacheOK (UnmarshalWith cache data version shape dest).2 ∧
      (UnmarshalWith cache data version shape dest).1
        = (dontExpectEOF
            ((runPlan (compile shape version false) (bound data false) dest).2).err,
           (runPlan (compile shape version false) (bound data false) dest).1) ∧
      (compile shape version false).classicOnly = true ∧
      (∀ (ord : FieldsPlan) (tg : TaggedPlan) (d : Decoder) (v : Val),
        runPlan (.pstruct ord false tg) d v = runFields ord d v) := by
  intro cache data version shape dest h
  obtain ⟨hc, he⟩ := UnmarshalWith_classic cache data version shape dest h
  exact ⟨hc, by rw [he, Unmarshal_eq], compile_classicOnly shape version,
    fun ord tg d v => runPlan_pstruct_classic ord tg d v⟩

theorem c10_witness :
    cacheOK (UnmarshalWith [] [0, 0, 0, 7] 0 .sint32 (.vint32 0)).2 ∧
      (UnmarshalWith [] [0, 0, 0, 7] 0 .sint32 (.vint32 0)).1
        = (dontExpectEOF
            ((runPlan (compile .sint32 0 false) (bound [0, 0, 0, 7] false)
              (.vint32 0)).2).err,
           (runPlan (compile .sint32 0 false) (bound [0, 0, 0, 7] false)
             (.vint32 0)).1) ∧
      (compile .sint32 0 false).classicOnly = true := by
  obtain ⟨h1, h2, h3, _⟩ := c10_unmarshal_always_classic [] [0, 0, 0, 7] 0
    .sint32 (.vint32 0) (fun p hp => absurd hp (List.not_mem_nil p))
  exact ⟨h1, h2, h3⟩

end KafkaGo

namespace KafkaGo

/-- C6: in a flexible struct decode, after the positional fields the routine
reads an unsigned-varint extension count followed, per entry, by
(tag id, payload length) unsigned varints; an entry whose tag id matches a
registered extension field is decoded by that field's compiled decoder into
its destination field, and an entry with an unregistered tag id has exactly
payload-length bytes consumed and ignored, leaving the decode successful and
the destination value produced by the positional phase completely
unperturbed.  (Stated for a one-entry tag section whose varints are
single-byte, against whatever state and value the positional phase
produced.) -/
theorem c6_flexible_tagged_section :
    ∀ (ord : FieldsPlan) (tagged : TaggedPlan) (d : Decoder) (v v1 : Val)
      (t s : Nat) (payload rest : List Nat) (hd : Bool),
      runFields ord d v = (v1, bound (1 :: t :: s :: (payload ++ rest)) hd) →
      t < 128 → s < 128 → payload.length = s →
      ((∀ q ∈ taggedFns tagged, q.1 ≠ (t : Int)) →
        runPlan (.pstruct ord true tagged) d v = (v1, bound rest hd)) ∧
      (∀ q, (taggedFns tagged).find? (fun e => decide (e.1 = toInt64 t))
          = some q →
        runPlan (.pstruct ord true tagged) d v =
          (setField v1 q.2.1
            (q.2.2 (bound (payload ++ rest) hd) (getField v1 q.2.1)).1,
           (q.2.2 (bound (payload ++ rest) hd) (getField v1 q.2.1)).2)) := by
  intro ord tagged d v v1 t s payload rest hd hrun ht hs hp
  have hone : (toInt64 1).toNat = 1 := by decide
  have hcommon : runPlan (.pstruct ord true tagged) d v
      = runTaggedFn (taggedFns tagged) 1
          (bound (t :: s :: (payload ++ rest)) hd) v1 := by
    simp only [runPlan, hrun]
    rw [readUnsignedVarInt_single 1 _ hd (by norm_num)]
    simp only [hone]
    simp
  constructor
  · intro hunreg
    rw [hcommon]
    simp only [runTaggedFn]
    rw [readUnsignedVarInt_single t _ hd ht,
      readUnsignedVarInt_single s _ hd hs]
    have hfind : (taggedFns tagged).find? (fun e => decide (e.1 = toInt64 t))
        = none := by
      rw [List.find?_eq_none]
      intro q hq
      simp only [toInt64_small t (by omega : t < 2 ^ 63), decide_eq_true_eq]
      exact hunreg q hq
    simp only [hfind]
    have htos : (toInt64 s).toNat = s := by
      rw [toInt64_small s (by omega : s < 2 ^ 63)]
      omega
    rw [htos, dread_bound, if_pos (by simp [hp] : s ≤ (payload ++ rest).length)]
    have hdrop : (payload ++ rest).drop s = rest := by
      rw [← hp]
      exact List.drop_left payload rest
    rw [hdrop]
  · intro q hq
    rw [hcommon]
    simp only [runTaggedFn]
    rw [readUnsignedVarInt_single t _ hd ht,
      readUnsignedVarInt_single s _ hd hs]
    simp only [hq]

theorem c6_witness :
    runPlan (.pstruct .nil true .nil)
        (bound [1, 9, 3, 7, 8, 42, 5, 5] false) (.vstruct .nil)
      = (.vstruct .nil, bound [5, 5] false) := by
  obtain ⟨h1, _⟩ := c6_flexible_tagged_section .nil .nil
    (bound [1, 9, 3, 7, 8, 42, 5, 5] false) (.vstruct .nil) (.vstruct .nil)
    9 3 [7, 8, 42] [5, 5] false rfl (by norm_num) (by norm_num) rfl
  exact h1 (fun q hq => absurd hq (List.not_mem_nil q))

/-- Scenario A of the spec: a struct with an `int32` field applicable from
version 0 and a `string` field applicable only from version 1. -/
def scenarioShapeA : Shape :=
  .sstruct (.cons [⟨0, 32767, -2, false, false⟩] .sint32
    (.cons [⟨1, 32767, -2, false, false⟩] .sstring .nil))

/-- C7: a struct field whose declared version ranges all exclude the
requested version is omitted from the compiled plan entirely — neither the
positional nor the tagged part of the plan addresses its index, and running
the compiled struct plan leaves that field of the destination untouched (so
a zero destination keeps its zero value, and the field consumes no bytes
since no plan entry exists for it).  In particular, Scenario A: the struct
`{A: int32 @0+, B: string @1+}` decoded at version 0 from exactly A's four
bytes yields `A = 7`, `B = ""` and no error. -/
theorem c7_version_gating :
    (∀ (fields : SFields) (ver : Int) (flex : Bool) (j : Nat)
      (tags : List StructTag) (sh : Shape) (d : Decoder) (dest : Val),
      fields.get? j = some (tags, sh) →
      tags.find? (fun t => decide (t.minVersion ≤ ver) &&
        decide (ver ≤ t.maxVersion)) = none →
      ((compileFields fields ver flex 0).1.hasIndex j = false ∧
       (compileFields fields ver flex 0).2.hasIndex j = false) ∧
      getField (runPlan (compile (.sstruct fields) ver flex) d dest).1 j
        = getField dest j) ∧
    Unmarshal [0, 0, 0, 7] 0 scenarioShapeA (Shape.defaultVal scenarioShapeA)
      = (none, .vstruct (.cons (.vint32 7) (.cons (.vstring []) .nil))) := by
  constructor
  · intro fields ver flex j tags sh d dest hget hnone
    have hskip := compileFields_skip fields ver flex 0 j tags sh hget hnone
    rw [Nat.zero_add] at hskip
    refine ⟨hskip, ?_⟩
    simp only [compile]
    exact runPlan_pstruct_untouched _ _ _ d dest j hskip.1 hskip.2
  · rfl

theorem c7_witness :
    ((compileFields
        (.cons [⟨0, 32767, -2, false, false⟩] .sint32
          (.cons [⟨1, 32767, -2, false, false⟩] .sstring .nil)) 0 false 0).1.hasIndex 1
      = false) ∧
    getField (runPlan (compile scenarioShapeA 0 false) (bound [0, 0, 0, 7] false)
        (Shape.defaultVal scenarioShapeA)).1 1
      = getField (Shape.defaultVal scenarioShapeA) 1 := by
  obtain ⟨hgen, _⟩ := c7_version_gating
  obtain ⟨⟨h1, _⟩, h2⟩ := hgen
    (.cons [⟨0, 32767, -2, false, false⟩] .sint32
      (.cons [⟨1, 32767, -2, false, false⟩] .sstring .nil)) 0 false 1
    [⟨1, 32767, -2, false, false⟩] .sstring (bound [0, 0, 0, 7] false)
    (Shape.defaultVal scenarioShapeA) rfl (by decide)
  exact ⟨h1, h2⟩

end KafkaGo

namespace KafkaGo

/-- C2 (counterexample): a classic array of `int32` with declared count 3 but
only 10 element bytes remaining (12 > 10, so the count exceeds the budget):
decoding consumes the 10 bytes, latches `io.ErrUnexpectedEOF` (the third
element's read is cut mid-element), and `Unmarshal` reports that error — not
"no error" — while the produced slice has the full declared length 3
(`makeArray` allocates the declared count; the third element stays 0), not
fewer elements than declared. -/
theorem c2_counterexample :
    Unmarshal [0, 0, 0, 3, 0, 0, 0, 1, 0, 0, 0, 2, 9, 9] 5 (.sarray .sint32)
        (.varray .nil)
      = (some .unexpectedEOF,
         .varray (.cons (.vint32 1) (.cons (.vint32 2) (.cons (.vint32 0) .nil)))) ∧
    (.varray (.cons (.vint32 1) (.cons (.vint32 2) (.cons (.vint32 0) .nil))) :
        Val)
      = .varray (Vals.cons (.vint32 1) (.cons (.vint32 2) (.cons (.vint32 0) .nil))) := by
  exact ⟨rfl, rfl⟩

/-- C2 (amended): classic array element decoding never reads past the frame:
the element loop stops the moment the cursor's remaining budget is no longer
positive, and the budget stays non-negative under any plan.  When the byte
budget runs out exactly at an element boundary before the declared count is
reached, no error is reported and the produced array has the full declared
length with the undecoded elements left at the element zero value (not fewer
elements).  When the budget runs out in the middle of an element, the
premature-end-of-input error is reported.  (Element loops shown for `int32`
elements; the declared count is the big-endian value of the 4-byte prefix.) -/
theorem c2_defensive_truncation :
    (∀ (f : Decoder → Val → Val × Decoder) (cnt i : Nat) (a : Vals)
      (d : Decoder), d.remain ≤ 0 → runElemsFn f cnt i a d = (a, d)) ∧
    (∀ (c0 c1 c2 c3 m : Nat) (elems : List Nat) (ver : Int) (dest : Val),
      c0 < 128 → c1 < 256 → c2 < 256 → c3 < 256 →
      elems.length = 4 * m →
      m < ((c0 * 256 + c1) * 256 + c2) * 256 + c3 →
      ∃ l, Unmarshal (c0 :: c1 :: c2 :: c3 :: elems) ver (.sarray .sint32) dest
          = (none, .varray l)
        ∧ l.length = ((c0 * 256 + c1) * 256 + c2) * 256 + c3
        ∧ ∀ j z, m ≤ j → j < ((c0 * 256 + c1) * 256 + c2) * 256 + c3 →
            l.getD j z = .vint32 0) ∧
    (∀ (c0 c1 c2 c3 : Nat) (elems : List Nat) (ver : Int) (dest : Val),
      c0 < 128 → c1 < 256 → c2 < 256 → c3 < 256 →
      elems.length % 4 ≠ 0 →
      elems.length < 4 * (((c0 * 256 + c1) * 256 + c2) * 256 + c3) →
      (Unmarshal (c0 :: c1 :: c2 :: c3 :: elems) ver (.sarray .sint32) dest).1
        = some .unexpectedEOF) ∧
    (∀ (p : Plan) (d : Decoder) (v : Val), 0 ≤ d.remain →
      0 ≤ ((runPlan p d v).2).remain) := by
  refine ⟨fun f cnt i a d h => runElemsFn_zero_rem f cnt i a d h, ?_, ?_,
    fun p d v h => runPlan_remNonneg p d v h⟩
  · intro c0 c1 c2 c3 m elems ver dest hb0 hb1 hb2 hb3 hlen hm
    rw [Unmarshal_eq]
    rw [show compile (.sarray .sint32) ver false
      = .parray (.vint32 0) .pint32 from rfl]
    simp only [runPlan, readInt32_bound,
      if_pos (by simp : (4 : Nat) ≤ (c0 :: c1 :: c2 :: c3 :: elems).length)]
    have hval : toSigned 32 (beNat ((c0 :: c1 :: c2 :: c3 :: elems).take 4)) =
        ((((c0 * 256 + c1) * 256 + c2) * 256 + c3 : Nat) : Int) := by
      rw [show (c0 :: c1 :: c2 :: c3 :: elems).take 4 = [c0, c1, c2, c3] from rfl,
        beNat_four]
      exact toSigned_nonneg 32 _ (beNat32_lt c0 c1 c2 c3 hb0 hb1 hb2 hb3)
    rw [hval, if_neg (not_lt.mpr (Int.natCast_nonneg _))]
    have htonat : ((((c0 * 256 + c1) * 256 + c2) * 256 + c3 : Nat) : Int).toNat
        = ((c0 * 256 + c1) * 256 + c2) * 256 + c3 := by omega
    rw [htonat, show (c0 :: c1 :: c2 :: c3 :: elems).drop 4 = elems from rfl]
    obtain ⟨l, hl, hlen2, huntouched⟩ := runElems_i32_boundary
      (((c0 * 256 + c1) * 256 + c2) * 256 + c3) m 0
      (Vals.replicate (((c0 * 256 + c1) * 256 + c2) * 256 + c3) (.vint32 0))
      elems false hlen hm
    simp only [runPlan] at hl
    rw [hl]
    refine ⟨l, by simp [bound, dontExpectEOF], ?_, ?_⟩
    · rw [hlen2, Vals.length_replicate]
    · intro j z hjm hjc
      rw [huntouched j z (by omega), Vals.getD_replicate_lt _ j _ z hjc]
  · intro c0 c1 c2 c3 elems ver dest hb0 hb1 hb2 hb3 hmod hlen
    rw [Unmarshal_eq]
    rw [show compile (.sarray .sint32) ver false
      = .parray (.vint32 0) .pint32 from rfl]
    simp only [runPlan, readInt32_bound,
      if_pos (by simp : (4 : Nat) ≤ (c0 :: c1 :: c2 :: c3 :: elems).length)]
    have hval : toSigned 32 (beNat ((c0 :: c1 :: c2 :: c3 :: elems).take 4)) =
        ((((c0 * 256 + c1) * 256 + c2) * 256 + c3 : Nat) : Int) := by
      rw [show (c0 :: c1 :: c2 :: c3 :: elems).take 4 = [c0, c1, c2, c3] from rfl,
        beNat_four]
      exact toSigned_nonneg 32 _ (beNat32_lt c0 c1 c2 c3 hb0 hb1 hb2 hb3)
    rw [hval, if_neg (not_lt.mpr (Int.natCast_nonneg _))]
    have htonat : ((((c0 * 256 + c1) * 256 + c2) * 256 + c3 : Nat) : Int).toNat
        = ((c0 * 256 + c1) * 256 + c2) * 256 + c3 := by omega
    rw [htonat, show (c0 :: c1 :: c2 :: c3 :: elems).drop 4 = elems from rfl]
    obtain ⟨l, hl, _⟩ := runElems_i32_mid
      (((c0 * 256 + c1) * 256 + c2) * 256 + c3) 0
      (Vals.replicate (((c0 * 256 + c1) * 256 + c2) * 256 + c3) (.vint32 0))
      elems false hlen hmod
    simp only [runPlan] at hl
    rw [hl]
    rfl

theorem c2_witness :
    (∃ l, Unmarshal [0, 0, 0, 4, 0, 0, 0, 9] 1 (.sarray .sint32) (.varray .nil)
        = (none, .varray l)
      ∧ l.length = 4
      ∧ ∀ j z, 1 ≤ j → j < 4 → l.getD j z = .vint32 0) ∧
    (Unmarshal [0, 0, 0, 3, 0, 0, 0, 1, 0, 0, 0, 2, 9, 9] 5 (.sarray .sint32)
      (.varray .nil)).1 = some .unexpectedEOF := by
  obtain ⟨_, h2, h3, _⟩ := c2_defensive_truncation
  exact ⟨h2 0 0 0 4 1 [0, 0, 0, 9] 1 (.varray .nil) (by norm_num) (by norm_num)
      (by norm_num) (by norm_num) rfl (by norm_num),
    h3 0 0 0 3 [0, 0, 0, 1, 0, 0, 0, 2, 9, 9] 5 (.varray .nil) (by norm_num)
      (by norm_num) (by norm_num) (by norm_num) (by norm_num) (by norm_num)⟩

end KafkaGo

namespace KafkaGo

theorem dontExpectEOF_ne_none (e : Option DErr) (h : e ≠ none) :
    dontExpectEOF e ≠ none := by
  match e with
  | none => exact absurd rfl h
  | some e' => exact dontExpectEOF_some e'

theorem readString_shortLen (data : List Nat) (hd : Bool)
    (h : data.length < 2) :
    (readString (bound data hd)).2
      = ⟨[], hd, 0, some (if data.length = 0 then DErr.eof else .unexpectedEOF)⟩ := by
  have h16 : readInt16 (bound data hd)
      = (0, ⟨[], hd, 0,
          some (if data.length = 0 then DErr.eof else .unexpectedEOF)⟩) := by
    rw [readInt16_bound, if_neg (show ¬(2 ≤ data.length) from by omega)]
  unfold readString
  simp only [h16]
  rw [dread_err _ (if data.length = 0 then DErr.eof else .unexpectedEOF) rfl]
  simp

theorem readBytes_shortLen (data : List Nat) (hd : Bool)
    (h : data.length < 4) :
    (readBytes (bound data hd)).2
      = ⟨[], hd, 0, some (if data.length = 0 then DErr.eof else .unexpectedEOF)⟩ := by
  have h32 : readInt32 (bound data hd)
      = (0, ⟨[], hd, 0,
          some (if data.length = 0 then DErr.eof else .unexpectedEOF)⟩) := by
    rw [readInt32_bound, if_neg (show ¬(4 ≤ data.length) from by omega)]
  unfold readBytes
  simp only [h32]
  rw [dread_err _ (if data.length = 0 then DErr.eof else .unexpectedEOF) rfl]
  simp

/-- A two-field struct of `int32`s, both applicable at version 0 (used as the
nested-struct representative, including the case where the buffer ends
exactly on the boundary between the two fields). -/
def structTwoInt32 : Shape :=
  .sstruct (.cons [⟨0, 32767, -2, false, false⟩] .sint32
    (.cons [⟨0, 32767, -2, false, false⟩] .sint32 .nil))

theorem twoInt32_err (data : List Nat) (dest : Val) (h : data.length < 8) :
    ((runFields (.cons 0 .pint32 (.cons 1 .pint32 .nil)) (bound data false)
      dest).2).err ≠ none := by
  by_cases h4 : 4 ≤ data.length
  · simp only [runFields, runPlan_pint32]
    rw [readInt32_bound, if_pos h4]
    dsimp only
    rw [readInt32_bound, if_neg (by simp [List.length_drop]; omega)]
    simp
  · simp only [runFields, runPlan_pint32]
    rw [readInt32_bound, if_neg h4]
    dsimp only
    rw [readInt32_err _ (if data.length = 0 then DErr.eof else .unexpectedEOF) rfl]
    simp

/-- C1 (counterexample): a truncated buffer for the array shape category does
NOT always produce an error: a classic array of `int8` with declared count 4
but only two element bytes (so the buffer is strictly shorter than the bytes
the field requires) decodes with a nil error, because the element loop stops
silently when the budget reaches zero at an element boundary (defensive
truncation, see C2). -/
theorem c1_counterexample :
    (Unmarshal [0, 0, 0, 4, 9, 9] 0 (.sarray .sint8) (.varray .nil)).1
      = none := by
  rfl

/-- C1 (amended): a truncated buffer is reported as a non-nil `Unmarshal`
error for the primitive, string, bytes and nested-struct shape categories —
including an end-of-input that falls exactly on a field boundary, where zero
bytes of the next required field are available — and a buffer that supplies
exactly what the plan expects yields a nil error.  For the array category the
error is reported when the 4-byte count prefix is truncated or when the
buffer ends in the middle of an element, but an end-of-input exactly on an
element boundary before the declared count is defensively tolerated with a
nil error (see the counterexample and C2). -/
theorem c1_truncation_reported :
    (∀ (data : List Nat) (ver : Int) (dest : Val), data.length < 4 →
      (Unmarshal data ver .sint32 dest).1 ≠ none) ∧
    (∀ (data : List Nat) (ver : Int) (dest : Val), data.length = 4 →
      (Unmarshal data ver .sint32 dest).1 = none) ∧
    (∀ (data : List Nat) (ver : Int) (dest : Val), data.length < 2 →
      (Unmarshal data ver .sstring dest).1 ≠ none) ∧
    (∀ (b0 b1 : Nat) (rest : List Nat) (ver : Int) (dest : Val), b0 < 128 →
      b1 < 256 → rest.length < b0 * 256 + b1 →
      (Unmarshal (b0 :: b1 :: rest) ver .sstring dest).1 ≠ none) ∧
    (∀ (b0 b1 : Nat) (rest : List Nat) (ver : Int) (dest : Val), b0 < 128 →
      b1 < 256 → rest.length = b0 * 256 + b1 →
      (Unmarshal (b0 :: b1 :: rest) ver .sstring dest).1 = none) ∧
    (∀ (data : List Nat) (ver : Int) (dest : Val), data.length < 4 →
      (Unmarshal data ver .sbytes dest).1 ≠ none) ∧
    (∀ (b0 b1 b2 b3 : Nat) (rest : List Nat) (ver : Int) (dest : Val),
      b0 < 128 → b1 < 256 → b2 < 256 → b3 < 256 →
      rest.length < ((b0 * 256 + b1) * 256 + b2) * 256 + b3 →
      (Unmarshal (b0 :: b1 :: b2 :: b3 :: rest) ver .sbytes dest).1 ≠ none) ∧
    (∀ (b0 b1 b2 b3 : Nat) (rest : List Nat) (ver : Int) (dest : Val),
      b0 < 128 → b1 < 256 → b2 < 256 → b3 < 256 →
      rest.length = ((b0 * 256 + b1) * 256 + b2) * 256 + b3 →
      (Unmarshal (b0 :: b1 :: b2 :: b3 :: rest) ver .sbytes dest).1 = none) ∧
    (∀ (data : List Nat) (dest : Val), data.length < 8 →
      (Unmarshal data 0 structTwoInt32 dest).1 ≠ none) ∧
    (∀ (data : List Nat) (dest : Val), data.length = 8 →
      (Unmarshal data 0 structTwoInt32 dest).1 = none) ∧
    (∀ (data : List Nat) (ver : Int) (dest : Val), data.length < 4 →
      (Unmarshal data ver (.sarray .sint32) dest).1 ≠ none) ∧
    (∀ (c0 c1 c2 c3 : Nat) (elems : List Nat) (ver : Int) (dest : Val),
      c0 < 128 → c1 < 256 → c2 < 256 → c3 < 256 →
      elems.length % 4 ≠ 0 →
      elems.length < 4 * (((c0 * 256 + c1) * 256 + c2) * 256 + c3) →
      (Unmarshal (c0 :: c1 :: c2 :: c3 :: elems) ver (.sarray .sint32) dest).1
        ≠ none) := by
  refine ⟨?_, ?_, ?_, ?_, ?_, ?_, ?_, ?_, ?_, ?_, ?_, ?_⟩
  · intro data ver dest h
    rw [Unmarshal_eq, show compile .sint32 ver false = .pint32 from rfl,
      runPlan_pint32_bound, if_neg (by omega)]
    exact dontExpectEOF_some _
  · intro data ver dest h
    rw [Unmarshal_eq, show compile .sint32 ver false = .pint32 from rfl,
      runPlan_pint32_bound, if_pos (by omega)]
    rfl
  · intro data ver dest h
    rw [Unmarshal_eq, show compile .sstring ver false = .pstring from rfl,
      runPlan_pstring]
    dsimp only
    rw [readString_shortLen data false h]
    exact dontExpectEOF_some _
  · intro b0 b1 rest ver dest hb0 hb1 hlen
    rw [Unmarshal_eq, show compile .sstring ver false = .pstring from rfl,
      runPlan_pstring]
    dsimp only
    rw [readString_bound_short b0 b1 rest false hb0 hb1 hlen]
    exact dontExpectEOF_some _
  · intro b0 b1 rest ver dest hb0 hb1 hlen
    rw [Unmarshal_eq, show compile .sstring ver false = .pstring from rfl,
      runPlan_pstring]
    dsimp only
    rw [readString_bound_ok b0 b1 rest false hb0 hb1 (by omega)]
    rfl
  · intro data ver dest h
    rw [Unmarshal_eq, show compile .sbytes ver false = .pbytes from rfl]
    simp only [runPlan]
    rw [readBytes_shortLen data false h]
    exact dontExpectEOF_some _
  · intro b0 b1 b2 b3 rest ver dest hb0 hb1 hb2 hb3 hlen
    rw [Unmarshal_eq, show compile .sbytes ver false = .pbytes from rfl]
    simp only [runPlan]
    rw [readBytes_bound_short b0 b1 b2 b3 rest false hb0 hb1 hb2 hb3 hlen]
    exact dontExpectEOF_some _
  · intro b0 b1 b2 b3 rest ver dest hb0 hb1 hb2 hb3 hlen
    rw [Unmarshal_eq, show compile .sbytes ver false = .pbytes from rfl]
    simp only [runPlan]
    rw [readBytes_bound_ok b0 b1 b2 b3 rest false hb0 hb1 hb2 hb3 (by omega)]
    rfl
  · intro data dest h
    rw [Unmarshal_eq, show compile structTwoInt32 0 false
        = .pstruct (.cons 0 .pint32 (.cons 1 .pint32 .nil)) false .nil from rfl,
      runPlan_pstruct_classic]
    exact dontExpectEOF_ne_none _ (twoInt32_err data dest h)
  · intro data dest h
    rw [Unmarshal_eq, show compile structTwoInt32 0 false
        = .pstruct (.cons 0 .pint32 (.cons 1 .pint32 .nil)) false .nil from rfl,
      runPlan_pstruct_classic]
    simp only [runFields, runPlan_pint32]
    rw [readInt32_bound, if_pos (by omega)]
    dsimp only
    rw [readInt32_bound, if_pos (by simp [List.length_drop]; omega)]
    rfl
  · intro data ver dest h
    have h32 : readInt32 (bound data false)
        = (0, ⟨[], false, 0,
            some (if data.length = 0 then DErr.eof else .unexpectedEOF)⟩) := by
      rw [readInt32_bound, if_neg (show ¬(4 ≤ data.length) from by omega)]
    rw [Unmarshal_eq, show compile (.sarray .sint32) ver false
      = .parray (.vint32 0) .pint32 from rfl]
    simp only [runPlan, h32, runElemsFn]
    exact dontExpectEOF_some _
  · intro c0 c1 c2 c3 elems ver dest hb0 hb1 hb2 hb3 hmod hlen
    rw [Unmarshal_eq, show compile (.sarray .sint32) ver false
      = .parray (.vint32 0) .pint32 from rfl]
    simp only [runPlan, readInt32_bound,
      if_pos (by simp : (4 : Nat) ≤ (c0 :: c1 :: c2 :: c3 :: elems).length)]
    have hval : toSigned 32 (beNat ((c0 :: c1 :: c2 :: c3 :: elems).take 4)) =
        ((((c0 * 256 + c1) * 256 + c2) * 256 + c3 : Nat) : Int) := by
      rw [show (c0 :: c1 :: c2 :: c3 :: elems).take 4 = [c0, c1, c2, c3] from rfl,
        beNat_four]
      exact toSigned_nonneg 32 _ (beNat32_lt c0 c1 c2 c3 hb0 hb1 hb2 hb3)
    rw [hval, if_neg (not_lt.mpr (Int.natCast_nonneg _))]
    have htonat : ((((c0 * 256 + c1) * 256 + c2) * 256 + c3 : Nat) : Int).toNat
        = ((c0 * 256 + c1) * 256 + c2) * 256 + c3 := by omega
    rw [htonat, show (c0 :: c1 :: c2 :: c3 :: elems).drop 4 = elems from rfl]
    obtain ⟨l, hl, _⟩ := runElems_i32_mid
      (((c0 * 256 + c1) * 256 + c2) * 256 + c3) 0
      (Vals.replicate (((c0 * 256 + c1) * 256 + c2) * 256 + c3) (.vint32 0))
      elems false hlen hmod
    simp only [runPlan] at hl
    rw [hl]
    exact dontExpectEOF_some _

theorem c1_witness :
    (Unmarshal [0, 0] 0 .sint32 (.vint32 0)).1 ≠ none ∧
    (Unmarshal [0, 0, 0, 7] 0 .sint32 (.vint32 0)).1 = none ∧
    (Unmarshal [0, 2, 65] 0 .sstring (.vstring [])).1 ≠ none ∧
    (Unmarshal [0, 0, 0, 0] 0 structTwoInt32
      (Shape.defaultVal structTwoInt32)).1 ≠ none ∧
    (Unmarshal [0, 0] 0 (.sarray .sint32) (.varray .nil)).1 ≠ none := by
  obtain ⟨h1, h2, _, h4, _, _, _, _, h9, _, h11, _⟩ := c1_truncation_reported
  exact ⟨h1 [0, 0] 0 (.vint32 0) (by norm_num),
    h2 [0, 0, 0, 7] 0 (.vint32 0) rfl,
    h4 0 2 [65] 0 (.vstring []) (by norm_num) (by norm_num) (by norm_num),
    h9 [0, 0, 0, 0] (Shape.defaultVal structTwoInt32) (by norm_num),
    h11 [0, 0] 0 (.varray .nil) (by norm_num)⟩

end KafkaGo
